import Mathlib

/-!
A shallow embedding, in Lean 4, of the RSA subsystem of the `rustopals`
repository (`src/rsa/mod.rs`, `src/rsa/util.rs`, `src/rsa/primes.rs`,
`src/rsa/padding/pkcs1v1_5.rs`, and the Bleichenbacher attack in
`tests/set6/challenge47_48_pkcs1_5_padding_oracle.rs`), together with
theorems settling the specification claims about that code.

Conventions used throughout:
- `BigUint` is embedded as `Nat`, `BigInt` as `Int`.  Rust `BigInt` `%` and
  `/` are truncated division, embedded as `Int.tmod` / `Int.tdiv`.
- A Rust function that can panic (failed `assert!`, arithmetic underflow on
  `BigUint`, division by zero, out-of-range slice index, `unwrap`/`expect`
  on `None`) is embedded with an `Option` layer whose `none` means
  "panics".  A Rust function returning `Option<T>` that can also panic is
  embedded as `Option (Option T)`: outer `none` = panic, `some none` =
  Rust `None`, `some (some x)` = Rust `Some(x)`.
- Unbounded Rust recursion/loops are embedded with an explicit fuel
  argument plus a lemma showing the result is independent of the fuel once
  the fuel is large enough (so the embedded function computes the same
  total function the Rust code computes whenever the Rust code terminates).
-/

/-! ## `src/rsa/util.rs` -/

/-- Fueled version of `egcd` from `src/rsa/util.rs`.  The Rust code is

    pub fn egcd(a: BigInt, b: BigInt) -> (BigInt, BigInt, BigInt) {
        if a.is_zero() {
            return (b, BigInt::from(0_usize), BigInt::from(1_usize));
        }
        let (g, y, x) = egcd(&b % &a, a.clone());
        (g, x - (b / a) * &y, y)
    }

`BigInt` `%` and `/` are truncated division, i.e. `Int.tmod` / `Int.tdiv`.
The fuel only bounds the recursion depth; `egcdAux_congr` below shows the
value is fuel-independent for sufficient fuel. -/
def egcdAux : Nat → Int → Int → Int × Int × Int
  | 0, _, b => (b, 0, 1)
  | fuel + 1, a, b =>
    if a = 0 then (b, 0, 1)
    else
      let r := egcdAux fuel (b.tmod a) a
      (r.1, r.2.2 - b.tdiv a * r.2.1, r.2.1)

/-- `egcd` from `src/rsa/util.rs` (see `egcdAux`).  All call sites in the
repository pass non-negative operands. -/
def egcd (a b : Int) : Int × Int × Int := egcdAux (a.natAbs + 1) a b

theorem egcdAux_congr :
    ∀ (k f g a b : Nat), a ≤ k → a < f → a < g →
      egcdAux f (a : Int) (b : Int) = egcdAux g (a : Int) (b : Int) := by
  intro k
  induction k with
  | zero =>
    intro f g a b hk hf hg
    obtain ⟨f', rfl⟩ := Nat.exists_eq_succ_of_ne_zero (by omega : f ≠ 0)
    obtain ⟨g', rfl⟩ := Nat.exists_eq_succ_of_ne_zero (by omega : g ≠ 0)
    interval_cases a
    simp [egcdAux]
  | succ k ih =>
    intro f g a b hk hf hg
    obtain ⟨f', rfl⟩ := Nat.exists_eq_succ_of_ne_zero (by omega : f ≠ 0)
    obtain ⟨g', rfl⟩ := Nat.exists_eq_succ_of_ne_zero (by omega : g ≠ 0)
    by_cases ha : a = 0
    · subst ha; simp [egcdAux]
    · have hcast : ¬ ((a : Int) = 0) := by exact_mod_cast ha
      have htmod : (b : Int).tmod (a : Int) = ((b % a : Nat) : Int) :=
        (Int.ofNat_tmod b a).symm
      have hlt : b % a < a := Nat.mod_lt _ (Nat.pos_of_ne_zero ha)
      have hle : b % a ≤ k := by omega
      simp only [egcdAux, if_neg hcast, htmod]
      rw [ih f' g' (b % a) a hle (by omega) (by omega)]

theorem egcd_zero (b : Nat) : egcd (0 : Int) (b : Int) = ((b : Int), 0, 1) := by
  simp [egcd, egcdAux]

theorem egcdAux_succ (fuel : Nat) (a b : Int) :
    egcdAux (fuel + 1) a b =
      if a = 0 then (b, 0, 1)
      else
        ((egcdAux fuel (b.tmod a) a).1,
         (egcdAux fuel (b.tmod a) a).2.2 - b.tdiv a * (egcdAux fuel (b.tmod a) a).2.1,
         (egcdAux fuel (b.tmod a) a).2.1) := rfl

theorem egcd_rec (a b : Nat) (ha : a ≠ 0) :
    egcd (a : Int) (b : Int) =
      ((egcd ((b % a : Nat) : Int) (a : Int)).1,
       (egcd ((b % a : Nat) : Int) (a : Int)).2.2
         - (b : Int).tdiv (a : Int) * (egcd ((b % a : Nat) : Int) (a : Int)).2.1,
       (egcd ((b % a : Nat) : Int) (a : Int)).2.1) := by
  have hcast : ¬ ((a : Int) = 0) := by exact_mod_cast ha
  have htmod : (b : Int).tmod (a : Int) = ((b % a : Nat) : Int) :=
    (Int.ofNat_tmod b a).symm
  have hlt : b % a < a := Nat.mod_lt _ (Nat.pos_of_ne_zero ha)
  have h0 : egcd (a : Int) (b : Int) = egcdAux (a + 1) (a : Int) (b : Int) := by
    unfold egcd
    rw [Int.natAbs_ofNat]
  have h1 : egcdAux a ((b % a : Nat) : Int) ((a : Nat) : Int)
      = egcd ((b % a : Nat) : Int) (a : Int) := by
    unfold egcd
    rw [Int.natAbs_ofNat]
    exact egcdAux_congr (b % a) a (b % a + 1) (b % a) a le_rfl hlt (by omega)
  rw [h0, egcdAux_succ, if_neg hcast, htmod, h1]

/-- The first component of `egcd` on naturals is the gcd. -/
theorem egcd_fst (a b : Nat) : (egcd (a : Int) (b : Int)).1 = (Nat.gcd a b : Int) := by
  induction a using Nat.strong_induction_on generalizing b with
  | _ a ih =>
    by_cases ha : a = 0
    · subst ha; simp [egcd_zero]
    · rw [egcd_rec a b ha]
      have hlt : b % a < a := Nat.mod_lt _ (Nat.pos_of_ne_zero ha)
      have := ih (b % a) hlt a
      simpa [Nat.gcd_rec a b] using this

/-- Bézout identity for `egcd` on naturals. -/
theorem egcd_bezout (a b : Nat) :
    (a : Int) * (egcd (a : Int) (b : Int)).2.1 + (b : Int) * (egcd (a : Int) (b : Int)).2.2
      = (egcd (a : Int) (b : Int)).1 := by
  induction a using Nat.strong_induction_on generalizing b with
  | _ a ih =>
    by_cases ha : a = 0
    · subst ha; simp [egcd_zero]
    · rw [egcd_rec a b ha]
      have hlt : b % a < a := Nat.mod_lt _ (Nat.pos_of_ne_zero ha)
      have hIH := ih (b % a) hlt a
      have htdiv : (b : Int).tdiv (a : Int) = ((b / a : Nat) : Int) := rfl
      have hdm : (a : Int) * ((b / a : Nat) : Int) + ((b % a : Nat) : Int) = (b : Int) := by
        exact_mod_cast congrArg (Nat.cast : Nat → Int) (Nat.div_add_mod b a)
      rw [htdiv]
      linear_combination hIH - (egcd ((b % a : Nat) : Int) (a : Int)).2.1 * hdm

/-- Truncated remainder of a negation. -/
theorem tmod_neg_left (a b : Int) : (-a).tmod b = -(a.tmod b) := by
  rw [Int.tmod_def, Int.tmod_def, Int.neg_tdiv]
  ring

/-- For a positive modulus, `tmod` stays strictly above `-n`. -/
theorem neg_lt_tmod (y : Int) (n : Nat) (hn : 0 < n) : -(n : Int) < y.tmod n := by
  rcases le_or_lt 0 y with hy | hy
  · have := Int.tmod_nonneg (n : Int) hy
    omega
  · have h1 : y.tmod (n : Int) = -((-y).tmod (n : Int)) := by
      rw [show y = -(-y) by ring, tmod_neg_left]
      rw [neg_neg]
    have h2 := Int.tmod_lt_of_pos (-y) (b := (n : Int)) (by exact_mod_cast hn)
    omega

/-- `tmod` is congruent to the dividend. -/
theorem tmod_modEq (y : Int) (n : Nat) : y.tmod n ≡ y [ZMOD (n : Int)] := by
  have h := Int.tdiv_add_tmod y (n : Int)
  have h2 : y.tmod n = y + (n : Int) * (-(y.tdiv n)) := by linarith
  rw [h2]
  unfold Int.ModEq
  rw [Int.add_mul_emod_self_left]

/-- `math_mod` from `src/rsa/util.rs`:
`(((x % n) + n) % n).to_biguint().unwrap()` on a `BigInt` `x` and a
`BigUint` modulus `n` (so `%` is truncated `Int.tmod`).  For `n > 0` the
value is non-negative, so the `unwrap` never panics; `toNat` embeds the
`to_biguint`.  (Both call sites in the repository have `n > 0`.) -/
def math_mod (x : Int) (n : Nat) : Nat := ((x.tmod n + n).tmod n).toNat

theorem math_mod_lt (x : Int) (n : Nat) (hn : 0 < n) : math_mod x n < n := by
  unfold math_mod
  have h1 : (0 : Int) ≤ x.tmod n + n := by
    have := neg_lt_tmod x n hn
    omega
  have h4 : (x.tmod n + n).tmod n < (n : Int) :=
    Int.tmod_lt_of_pos _ (by exact_mod_cast hn)
  have h5 : (0 : Int) ≤ (x.tmod n + n).tmod n := Int.tmod_nonneg _ h1
  omega

theorem math_mod_modEq (x : Int) (n : Nat) (hn : 0 < n) :
    ((math_mod x n : Nat) : Int) ≡ x [ZMOD (n : Int)] := by
  unfold math_mod
  have h1 : (0 : Int) ≤ x.tmod n + n := by
    have := neg_lt_tmod x n hn
    omega
  have h5 : (0 : Int) ≤ (x.tmod n + n).tmod n := Int.tmod_nonneg _ h1
  rw [Int.toNat_of_nonneg h5]
  calc (x.tmod n + n).tmod n ≡ x.tmod n + n [ZMOD (n : Int)] := tmod_modEq _ n
    _ ≡ x + n [ZMOD (n : Int)] := Int.ModEq.add_right _ (tmod_modEq x n)
    _ ≡ x + 0 [ZMOD (n : Int)] := Int.ModEq.add_left _ (by unfold Int.ModEq; simp)
    _ = x := by ring

/-- `inv_mod` from `src/rsa/util.rs`:

    pub fn inv_mod(a: BigUint, n: &BigUint) -> Option<BigUint> {
        assert!(&a < n);
        let (g, x, _) = egcd(BigInt::from(a), n.to_bigint().unwrap());
        if !g.is_one() { return None; }
        Some(math_mod(&x, n))
    }

Outer `none` = the `assert!` fails (panic); `some none` = Rust `None`. -/
def inv_mod (a n : Nat) : Option (Option Nat) :=
  if a < n then
    if (egcd (a : Int) (n : Int)).1 = 1 then
      some (some (math_mod (egcd (a : Int) (n : Int)).2.1 n))
    else some none
  else none

theorem inv_mod_eq_none_iff (a n : Nat) : inv_mod a n = none ↔ n ≤ a := by
  unfold inv_mod
  split
  · split <;> simp <;> omega
  · simp; omega

theorem inv_mod_some_none_iff (a n : Nat) (h : a < n) :
    inv_mod a n = some none ↔ Nat.gcd a n ≠ 1 := by
  unfold inv_mod
  rw [if_pos h]
  have hfst := egcd_fst a n
  constructor
  · intro heq
    by_contra hg
    rw [hfst, hg] at heq
    simp at heq
  · intro hg
    have hne : ¬ ((egcd (a : Int) (n : Int)).1 = 1) := by
      rw [hfst]
      exact_mod_cast hg
    rw [if_neg hne]

theorem inv_mod_some_some (a n d : Nat) (h : inv_mod a n = some (some d)) :
    a < n ∧ d < n ∧ a * d ≡ 1 [MOD n] := by
  unfold inv_mod at h
  by_cases hlt : a < n
  · rw [if_pos hlt] at h
    have hn : 0 < n := Nat.pos_of_ne_zero (by omega)
    by_cases hg : (egcd (a : Int) (n : Int)).1 = 1
    · rw [if_pos hg] at h
      simp only [Option.some.injEq] at h
      subst h
      refine ⟨hlt, math_mod_lt _ _ hn, ?_⟩
      have hbez := egcd_bezout a n
      rw [hg] at hbez
      set x := (egcd (a : Int) (n : Int)).2.1 with hx
      set y := (egcd (a : Int) (n : Int)).2.2 with hy
      have hd : ((math_mod x n : Nat) : Int) ≡ x [ZMOD (n : Int)] := math_mod_modEq x n hn
      have hmul : ((a : Int) * (math_mod x n : Nat)) ≡ (a : Int) * x [ZMOD (n : Int)] :=
        Int.ModEq.mul_left _ hd
      have h1 : (a : Int) * x ≡ 1 [ZMOD (n : Int)] := by
        have hax : (a : Int) * x = 1 + (n : Int) * (-y) := by linarith
        rw [hax]
        unfold Int.ModEq
        rw [Int.add_mul_emod_self_left]
      have hfin : ((a * math_mod x n : Nat) : Int) ≡ ((1 : Nat) : Int) [ZMOD ((n : Nat) : Int)] := by
        push_cast
        exact Int.ModEq.trans hmul h1
      exact_mod_cast Int.natCast_modEq_iff.mp hfin
    · rw [if_neg hg] at h
      simp at h
  · rw [if_neg hlt] at h
    simp at h

/-! ## `src/rsa/mod.rs`: key structures and textbook RSA -/

/-- An RSA public key, as in `src/rsa/mod.rs` (`e` exponent, `n` modulus). -/
structure RSAPublicKey where
  e : Nat
  n : Nat
deriving DecidableEq

/-- An RSA private key, as in `src/rsa/mod.rs` (`d` exponent, `n` modulus). -/
structure RSAPrivateKey where
  d : Nat
  n : Nat
deriving DecidableEq

/-- `RSAPublicKey::textbook_process`:

    if message > &self.n { return None; }
    Some(message.modpow(&self.e, &self.n))

Note the strict `>`: a message equal to `n` is processed.  `modpow` panics
(outer `none`) when the modulus is zero, which is unreachable for keys
built by `generate_rsa_keypair_from_primes`. -/
def RSAPublicKey.textbook_process (key : RSAPublicKey) (message : Nat) :
    Option (Option Nat) :=
  if message > key.n then some none
  else if key.n = 0 then none
  else some (some (message ^ key.e % key.n))

/-- `RSAPrivateKey::textbook_process` (same shape as the public-key one). -/
def RSAPrivateKey.textbook_process (key : RSAPrivateKey) (message : Nat) :
    Option (Option Nat) :=
  if message > key.n then some none
  else if key.n = 0 then none
  else some (some (message ^ key.d % key.n))

/-- `generate_rsa_keypair_from_primes` from `src/rsa/mod.rs`:

    let p_1 = p - 1;  let q_1 = q - 1;
    let (gcd_p_1_q_1, _, _) = egcd(p_1, q_1);
    let totient = p_1 * q_1 / gcd_p_1_q_1.to_biguint().expect(..);
    let n = p * q;
    let d = inv_mod(e.clone(), &totient)?;
    Some((RSAPublicKey { e, n }, RSAPrivateKey { d, n }))

Panic (`none`) cases: `p - 1` or `q - 1` underflows (`p = 0` or `q = 0`);
the `expect` fires (gcd negative, never happens) or the division divides
by zero (gcd zero, i.e. `p = q = 1`) — both folded into the `g ≤ 0` guard;
or `inv_mod`'s `assert!` fires (`e ≥ totient`). -/
def generate_rsa_keypair_from_primes (e p q : Nat) :
    Option (Option (RSAPublicKey × RSAPrivateKey)) :=
  if p = 0 ∨ q = 0 then none
  else if (egcd (((p - 1 : Nat)) : Int) (((q - 1 : Nat)) : Int)).1 ≤ 0 then none
  else
    match inv_mod e
        ((p - 1) * (q - 1) / (egcd (((p - 1 : Nat)) : Int) (((q - 1 : Nat)) : Int)).1.toNat) with
    | none => none
    | some none => some none
    | some (some d) => some (some (⟨e, p * q⟩, ⟨d, p * q⟩))

/-- Floor cube root, embedding `BigUint::cbrt`. -/
def natCbrt (n : Nat) : Nat := Nat.findGreatest (fun k => k ^ 3 ≤ n) n

/-- `e_3_broadcast_attack` from `src/rsa/mod.rs`:

    let m_s_0 = n_1 * n_2;  let m_s_1 = n_0 * n_2;  let m_s_2 = n_0 * n_1;
    let n_0_1_2 = n_0 * n_1 * n_2;
    let crt_result = ((c_0 * &m_s_0 * inv_mod(m_s_0, n_0).unwrap())
        + (c_1 * &m_s_1 * inv_mod(m_s_1, n_1).unwrap())
        + (c_2 * &m_s_2 * inv_mod(m_s_2, n_2).unwrap()))
        % &n_0_1_2;
    crt_result.cbrt()

`none` = panic, from `inv_mod`'s `assert!` or from `unwrap` on `None`. -/
def e_3_broadcast_attack (i0 i1 i2 : RSAPublicKey × Nat) : Option Nat :=
  match inv_mod (i1.1.n * i2.1.n) i0.1.n with
  | some (some v0) =>
    match inv_mod (i0.1.n * i2.1.n) i1.1.n with
    | some (some v1) =>
      match inv_mod (i0.1.n * i1.1.n) i2.1.n with
      | some (some v2) =>
        some (natCbrt ((i0.2 * (i1.1.n * i2.1.n) * v0 + i1.2 * (i0.1.n * i2.1.n) * v1
          + i2.2 * (i0.1.n * i1.1.n) * v2) % (i0.1.n * i1.1.n * i2.1.n)))
      | _ => none
    | _ => none
  | _ => none

/-! ## Number-theoretic facts used by the round-trip claim -/

/-- Fermat consequence: if `p` is prime and `p - 1` divides `k - 1` with
`k ≥ 1`, then `m ^ k ≡ m (mod p)` for every `m`. -/
theorem prime_pow_modEq_self (p k m : Nat) (hp : p.Prime) (hk : 1 ≤ k)
    (hdvd : (p - 1) ∣ (k - 1)) : m ^ k ≡ m [MOD p] := by
  haveI : Fact p.Prime := ⟨hp⟩
  rw [← ZMod.natCast_eq_natCast_iff]
  push_cast
  obtain ⟨t, ht⟩ := hdvd
  have hk' : k = (p - 1) * t + 1 := by
    have := hp.two_le
    omega
  by_cases ha : ((m : ZMod p)) = 0
  · rw [ha, zero_pow (by omega : k ≠ 0)]
  · rw [hk', pow_add, pow_mul, ZMod.pow_card_sub_one_eq_one ha, one_pow, pow_one, one_mul]

/-- Core RSA identity: for distinct primes `p, q` and an exponent `k` with
`k ≡ 1` modulo both `p - 1` and `q - 1`, `m ^ k ≡ m (mod p·q)`. -/
theorem rsa_exponent_roundtrip (p q k m : Nat) (hp : p.Prime) (hq : q.Prime)
    (hne : p ≠ q) (hk1 : 1 ≤ k) (hdp : (p - 1) ∣ (k - 1)) (hdq : (q - 1) ∣ (k - 1)) :
    m ^ k ≡ m [MOD p * q] :=
  (Nat.modEq_and_modEq_iff_modEq_mul ((Nat.coprime_primes hp hq).mpr hne)).mp
    ⟨prime_pow_modEq_self p k m hp hk1 hdp, prime_pow_modEq_self q k m hq hk1 hdq⟩

/-- Unfolding of `generate_rsa_keypair_from_primes` when none of the
pre-`inv_mod` panics can fire. -/
theorem keypair_unfold (e p q : Nat) (hp : p ≠ 0) (hq : q ≠ 0)
    (hg : 0 < Nat.gcd (p - 1) (q - 1)) :
    generate_rsa_keypair_from_primes e p q =
      match inv_mod e ((p - 1) * (q - 1) / Nat.gcd (p - 1) (q - 1)) with
      | none => none
      | some none => some none
      | some (some d) => some (some (⟨e, p * q⟩, ⟨d, p * q⟩)) := by
  unfold generate_rsa_keypair_from_primes
  rw [if_neg (by tauto : ¬ (p = 0 ∨ q = 0))]
  have hfst := egcd_fst (p - 1) (q - 1)
  have htoNat : ((egcd (((p - 1 : Nat)) : Int) (((q - 1 : Nat)) : Int)).1).toNat
      = Nat.gcd (p - 1) (q - 1) := by
    rw [hfst]
    exact Int.toNat_natCast _
  have hpos : ¬ ((egcd (((p - 1 : Nat)) : Int) (((q - 1 : Nat)) : Int)).1 ≤ 0) := by
    rw [hfst]
    exact_mod_cast Nat.not_le.mpr hg
  rw [if_neg hpos, htoNat]

/-- Facts extracted from a successful keypair generation for primes. -/
theorem keypair_facts (e p q : Nat) (pub : RSAPublicKey) (priv : RSAPrivateKey)
    (hp : p.Prime) (hq : q.Prime)
    (h : generate_rsa_keypair_from_primes e p q = some (some (pub, priv))) :
    pub.e = e ∧ pub.n = p * q ∧ priv.n = p * q ∧
      priv.d < Nat.lcm (p - 1) (q - 1) ∧
      e * priv.d ≡ 1 [MOD Nat.lcm (p - 1) (q - 1)] := by
  have hp2 := hp.two_le
  have hq2 := hq.two_le
  have hg : 0 < Nat.gcd (p - 1) (q - 1) :=
    Nat.gcd_pos_of_pos_left _ (by omega)
  rw [keypair_unfold e p q (by omega) (by omega) hg] at h
  have hlcm : (p - 1) * (q - 1) / Nat.gcd (p - 1) (q - 1) = Nat.lcm (p - 1) (q - 1) := rfl
  rw [hlcm] at h
  rcases hcase : inv_mod e (Nat.lcm (p - 1) (q - 1)) with _ | o
  · rw [hcase] at h
    simp at h
  · rcases o with _ | d
    · rw [hcase] at h
      simp at h
    · rw [hcase] at h
      simp only [Option.some.injEq, Prod.mk.injEq] at h
      obtain ⟨h1, h2⟩ := h
      obtain ⟨hlt, hdlt, hmod⟩ := inv_mod_some_some _ _ _ hcase
      constructor
      · rw [← h1]
      constructor
      · rw [← h1]
      constructor
      · rw [← h2]
      constructor
      · rw [← h2]
        exact hdlt
      · rw [← h2]
        exact hmod

/-- Claim C1: textbook RSA round-trip.  For distinct primes `p`, `q` and any
exponent `e` for which `generate_rsa_keypair_from_primes` returns a keypair
`(public, private)`, and for every plaintext `m < n = p·q`,
`private.textbook_process (public.textbook_process m)` returns `Some m`. -/
theorem rsa_textbook_roundtrip (e p q m : Nat) (pub : RSAPublicKey) (priv : RSAPrivateKey)
    (hp : p.Prime) (hq : q.Prime) (hne : p ≠ q)
    (hgen : generate_rsa_keypair_from_primes e p q = some (some (pub, priv)))
    (hm : m < p * q) :
    ∃ c, pub.textbook_process m = some (some c) ∧
      priv.textbook_process c = some (some m) := by
  obtain ⟨hpe, hpn, hvn, hdlt, hmod⟩ := keypair_facts e p q pub priv hp hq hgen
  have hp2 := hp.two_le
  have hq2 := hq.two_le
  have hnpos : 0 < p * q := by positivity
  set L := Nat.lcm (p - 1) (q - 1) with hL
  have hLpos : 0 < L := Nat.lcm_pos (by omega) (by omega)
  have hL2 : 2 ≤ L := by
    have h1 : p - 1 ≤ L := Nat.le_of_dvd hLpos (Nat.dvd_lcm_left _ _)
    have h2 : q - 1 ≤ L := Nat.le_of_dvd hLpos (Nat.dvd_lcm_right _ _)
    omega
  have hk1 : 1 ≤ e * priv.d := by
    by_contra hcon
    have h0 : e * priv.d = 0 := by omega
    rw [h0] at hmod
    have : 0 % L = 1 % L := hmod
    rw [Nat.zero_mod, Nat.mod_eq_of_lt (by omega : 1 < L)] at this
    omega
  have hdvdL : L ∣ e * priv.d - 1 :=
    (Nat.modEq_iff_dvd' hk1).mp hmod.symm
  have hdp : (p - 1) ∣ (e * priv.d - 1) := dvd_trans (Nat.dvd_lcm_left _ _) hdvdL
  have hdq : (q - 1) ∣ (e * priv.d - 1) := dvd_trans (Nat.dvd_lcm_right _ _) hdvdL
  have hcore : m ^ (e * priv.d) ≡ m [MOD p * q] :=
    rsa_exponent_roundtrip p q (e * priv.d) m hp hq hne hk1 hdp hdq
  refine ⟨m ^ e % (p * q), ?_, ?_⟩
  · unfold RSAPublicKey.textbook_process
    rw [hpn, hpe]
    rw [if_neg (by omega : ¬ m > p * q), if_neg (by omega : ¬ p * q = 0)]
  · unfold RSAPrivateKey.textbook_process
    rw [hvn]
    have hclt : m ^ e % (p * q) < p * q := Nat.mod_lt _ hnpos
    rw [if_neg (by omega : ¬ m ^ e % (p * q) > p * q), if_neg (by omega : ¬ p * q = 0)]
    have hstep : (m ^ e % (p * q)) ^ priv.d % (p * q) = m ^ (e * priv.d) % (p * q) := by
      rw [← Nat.pow_mod, ← pow_mul]
    rw [hstep]
    have : m ^ (e * priv.d) % (p * q) = m % (p * q) := hcore
    rw [this, Nat.mod_eq_of_lt hm]

/-- Witness for C1 at `e = 3`, `p = 11`, `q = 23`, `m = 42`. -/
theorem rsa_textbook_roundtrip_witness :
    ∃ c, RSAPublicKey.textbook_process ⟨3, 253⟩ 42 = some (some c) ∧
      RSAPrivateKey.textbook_process ⟨37, 253⟩ c = some (some 42) :=
  rsa_textbook_roundtrip 3 11 23 42 ⟨3, 253⟩ ⟨37, 253⟩
    (by norm_num) (by norm_num) (by norm_num) (by decide) (by decide)

/-- Claim C3 (counterexample): the claim says `textbook_process` returns
`None` for every `m ≥ n`, in particular for `m = n`.  But the code checks
`message > &self.n` strictly, so at `m = n = 5` (key exponent 3) it returns
`Some(5^3 mod 5) = Some 0`, not `None`. -/
theorem textbook_process_at_modulus :
    RSAPublicKey.textbook_process ⟨3, 5⟩ 5 = some (some 0) := by decide

/-- Claim C3 (amended): for every key with non-zero modulus `n` (the only
kind constructible by the key-generation code) and every message `m`,
`textbook_process` returns `None` exactly when `m > n`, and otherwise
returns `Some (m ^ exponent mod n)`; in particular `m = n` is processed. -/
theorem textbook_process_boundary (pk : RSAPublicKey) (sk : RSAPrivateKey) (m : Nat)
    (hpk : 0 < pk.n) (hsk : 0 < sk.n) :
    (pk.textbook_process m = some none ↔ pk.n < m) ∧
    (m ≤ pk.n → pk.textbook_process m = some (some (m ^ pk.e % pk.n))) ∧
    (sk.textbook_process m = some none ↔ sk.n < m) ∧
    (m ≤ sk.n → sk.textbook_process m = some (some (m ^ sk.d % sk.n))) := by
  unfold RSAPublicKey.textbook_process RSAPrivateKey.textbook_process
  refine ⟨?_, ?_, ?_, ?_⟩
  · split
    · simp; omega
    · rw [if_neg (by omega : ¬ pk.n = 0)]
      simp
      omega
  · intro h
    rw [if_neg (by omega : ¬ m > pk.n), if_neg (by omega : ¬ pk.n = 0)]
  · split
    · simp; omega
    · rw [if_neg (by omega : ¬ sk.n = 0)]
      simp
      omega
  · intro h
    rw [if_neg (by omega : ¬ m > sk.n), if_neg (by omega : ¬ sk.n = 0)]

/-- Witness for the amended C3 at the boundary `m = n`. -/
theorem textbook_process_boundary_witness :
    RSAPublicKey.textbook_process ⟨3, 5⟩ 5 = some (some (5 ^ 3 % 5)) :=
  (textbook_process_boundary ⟨3, 5⟩ ⟨3, 5⟩ 5 (by decide) (by decide)).2.1 (by decide)

/-- Claim C9: `inv_mod(a, n)` asserts `a < n`, so every call with `a ≥ n`
panics (returns no value) — even when `gcd(a, n) = 1` and a reduced inverse
exists; and the panic is reachable from `e_3_broadcast_attack`, which
passes `n1·n2` (here `35·37 = 1295 > 33 = n0`) as the first argument. -/
theorem inv_mod_asserts_lt :
    (∀ a n : Nat, n ≤ a → inv_mod a n = none) ∧
    e_3_broadcast_attack (⟨3, 33⟩, 5) (⟨3, 35⟩, 6) (⟨3, 37⟩, 7) = none :=
  ⟨fun a n h => (inv_mod_eq_none_iff a n).mpr h, by decide⟩

/-- Witness for C9: `inv_mod 7 5` panics even though `gcd(7, 5) = 1`. -/
theorem inv_mod_asserts_lt_witness :
    Nat.gcd 7 5 = 1 ∧ inv_mod 7 5 = none :=
  ⟨by decide, inv_mod_asserts_lt.1 7 5 (by decide)⟩

/-- Claim C2 (code bug): `e_3_broadcast_attack` never returns.  Its first
`inv_mod(n1·n2, n0)` call asserts `n1·n2 < n0`; if that holds with all
moduli positive, then `n0·n2 ≥ n1` makes the second call's assert fail.  So
for every input with positive moduli (all real keys) the function panics,
contradicting the repository's own `challenge40` test, which asserts that
the attack recovers the plaintext from three 1024-bit keypairs. -/
theorem e_3_broadcast_attack_always_panics (i0 i1 i2 : RSAPublicKey × Nat)
    (_h0 : 0 < i0.1.n) (_h1 : 0 < i1.1.n) (h2 : 0 < i2.1.n) :
    e_3_broadcast_attack i0 i1 i2 = none := by
  unfold e_3_broadcast_attack
  by_cases hc : i1.1.n * i2.1.n < i0.1.n
  · have hms1 : i1.1.n ≤ i0.1.n * i2.1.n := by
      calc i1.1.n ≤ i1.1.n * i2.1.n := Nat.le_mul_of_pos_right _ h2
        _ ≤ i0.1.n := by omega
        _ ≤ i0.1.n * i2.1.n := Nat.le_mul_of_pos_right _ h2
    have hpanic : inv_mod (i0.1.n * i2.1.n) i1.1.n = none :=
      (inv_mod_eq_none_iff _ _).mpr hms1
    rcases hval : inv_mod (i1.1.n * i2.1.n) i0.1.n with _ | o
    · rfl
    · rcases o with _ | v0
      · rfl
      · rw [hpanic]
  · have hpanic : inv_mod (i1.1.n * i2.1.n) i0.1.n = none :=
      (inv_mod_eq_none_iff _ _).mpr (by omega)
    rw [hpanic]

/-- Witness for C2 at a concrete valid broadcast instance: keys with
pairwise-coprime moduli `253 = 11·23`, `85 = 5·17`, `1537 = 29·53`, all
with `e = 3`, and the three ciphertexts of the common plaintext `42`
(`42^3 mod n_i`); the attack panics instead of returning `42`. -/
theorem e_3_broadcast_attack_always_panics_witness :
    e_3_broadcast_attack (⟨3, 253⟩, 42 ^ 3 % 253) (⟨3, 85⟩, 42 ^ 3 % 85)
      (⟨3, 1537⟩, 42 ^ 3 % 1537) = none :=
  e_3_broadcast_attack_always_panics _ _ _ (by decide) (by decide) (by decide)

/-- Claim C5 (counterexample): the claim says `generate_rsa_keypair_from_primes`
returns `None` exactly when `e` has no inverse modulo `λ`.  At `e = 5`,
`p = 3`, `q = 5` we have `λ = 2·4/gcd(2,4) = 4` and `gcd(5, 4) = 1`, so an
inverse exists and the claim demands a keypair; but `inv_mod`'s
`assert!(a < n)` fires (`5 ≥ 4`) and the function panics instead. -/
theorem keypair_panics_on_large_e :
    Nat.gcd 5 ((3 - 1) * (5 - 1) / Nat.gcd (3 - 1) (5 - 1)) = 1 ∧
    generate_rsa_keypair_from_primes 5 3 5 = none := by decide

/-- Claim C5 (amended): for primes `p`, `q`, with
`λ = (p−1)(q−1)/gcd(p−1, q−1)`: when `e < λ` the function returns `None`
exactly when `gcd(e, λ) ≠ 1`, and a returned keypair has `n = p·q` and
`d·e ≡ 1 (mod λ)`; when `e ≥ λ` the function panics (the `assert!` in
`inv_mod`).  In particular `(e, p, q) = (3, 7, 11)` yields `None`. -/
theorem keypair_from_primes_spec (e p q : Nat) (hp : p.Prime) (hq : q.Prime) :
    (e < (p - 1) * (q - 1) / Nat.gcd (p - 1) (q - 1) →
      (generate_rsa_keypair_from_primes e p q = some none ↔
        Nat.gcd e ((p - 1) * (q - 1) / Nat.gcd (p - 1) (q - 1)) ≠ 1)) ∧
    (∀ pub priv, generate_rsa_keypair_from_primes e p q = some (some (pub, priv)) →
      pub.e = e ∧ pub.n = p * q ∧ priv.n = p * q ∧
        priv.d * e ≡ 1 [MOD (p - 1) * (q - 1) / Nat.gcd (p - 1) (q - 1)]) ∧
    ((p - 1) * (q - 1) / Nat.gcd (p - 1) (q - 1) ≤ e →
      generate_rsa_keypair_from_primes e p q = none) ∧
    generate_rsa_keypair_from_primes 3 7 11 = some none := by
  have hp2 := hp.two_le
  have hq2 := hq.two_le
  have hg : 0 < Nat.gcd (p - 1) (q - 1) := Nat.gcd_pos_of_pos_left _ (by omega)
  have hunfold := keypair_unfold e p q (by omega) (by omega) hg
  refine ⟨?_, ?_, ?_, by decide⟩
  · intro hlt
    rw [hunfold]
    constructor
    · intro h
      rcases hcase : inv_mod e ((p - 1) * (q - 1) / Nat.gcd (p - 1) (q - 1)) with _ | o
      · rw [hcase] at h
        simp at h
      · rcases o with _ | d
        · exact (inv_mod_some_none_iff _ _ hlt).mp hcase
        · rw [hcase] at h
          simp at h
    · intro h
      rw [(inv_mod_some_none_iff _ _ hlt).mpr h]
  · intro pub priv h
    obtain ⟨h1, h2, h3, _, h5⟩ := keypair_facts e p q pub priv hp hq h
    have hlcm : Nat.lcm (p - 1) (q - 1) = (p - 1) * (q - 1) / Nat.gcd (p - 1) (q - 1) := rfl
    exact ⟨h1, h2, h3, by rw [← hlcm, Nat.mul_comm]; exact h5⟩
  · intro hge
    rw [hunfold, (inv_mod_eq_none_iff _ _).mpr hge]

/-- Witness for the amended C5: at `(e, p, q) = (3, 7, 11)`, `λ = 30`,
`gcd(3, 30) = 3 ≠ 1`, and key generation returns `None`. -/
theorem keypair_from_primes_spec_witness :
    generate_rsa_keypair_from_primes 3 7 11 = some none :=
  ((keypair_from_primes_spec 3 7 11 (by norm_num) (by norm_num)).1 (by decide)).mpr
    (by decide)

/-! ## Byte-level helpers: `BigUint::to_bytes_be` / `from_bytes_be` -/

/-- Fueled big-endian byte expansion (most significant byte first, no
leading zeros); the fuel only bounds recursion depth. -/
def toBytesBeAux : Nat → Nat → List Nat
  | 0, _ => []
  | fuel + 1, n => if n = 0 then [] else toBytesBeAux fuel (n / 256) ++ [n % 256]

/-- `BigUint::to_bytes_be`: big-endian bytes, `[0]` for zero, no leading
zeros otherwise. -/
def toBytesBe (n : Nat) : List Nat := if n = 0 then [0] else toBytesBeAux n n

/-- `BigUint::from_bytes_be`. -/
def fromBytesBe (l : List Nat) : Nat := l.foldl (fun acc b => acc * 256 + b) 0

theorem toBytesBe_ne_nil (n : Nat) : toBytesBe n ≠ [] := by
  unfold toBytesBe
  split
  · simp
  · rename_i hn
    obtain ⟨m, rfl⟩ := Nat.exists_eq_succ_of_ne_zero hn
    show toBytesBeAux (m + 1) (m + 1) ≠ []
    unfold toBytesBeAux
    rw [if_neg (by omega : ¬ m + 1 = 0)]
    simp

/-! ## `src/rsa/padding/pkcs1v1_5.rs`: encryption `unpad` -/

/-- `Iterator::position(|&x| x == 0)`, as used by the encryption `unpad`. -/
def position0 : List Nat → Option Nat
  | [] => none
  | b :: t => if b = 0 then some 0 else (position0 t).map (· + 1)

theorem position0_some (l : List Nat) (k : Nat) (h : position0 l = some k) :
    ∃ pre post, l = pre ++ 0 :: post ∧ pre.length = k ∧ ∀ b ∈ pre, b ≠ 0 := by
  induction l generalizing k with
  | nil => simp [position0] at h
  | cons b t ih =>
    unfold position0 at h
    by_cases hb : b = 0
    · rw [if_pos hb] at h
      simp only [Option.some.injEq] at h
      subst hb
      exact ⟨[], t, by simp, by simp [← h], by simp⟩
    · rw [if_neg hb] at h
      obtain ⟨k', hk', hfk⟩ := Option.map_eq_some'.mp h
      obtain ⟨pre, post, hpp, hlen, hnz⟩ := ih k' hk'
      refine ⟨b :: pre, post, by simp [hpp], by simp [hlen]; omega, ?_⟩
      intro x hx
      rcases List.mem_cons.mp hx with rfl | hx'
      · exact hb
      · exact hnz x hx'

theorem position0_append (pre post : List Nat) (hnz : ∀ b ∈ pre, b ≠ 0) :
    position0 (pre ++ 0 :: post) = some pre.length := by
  induction pre with
  | nil => simp [position0]
  | cons b t ih =>
    have hb : b ≠ 0 := hnz b (by simp)
    have ht : ∀ x ∈ t, x ≠ 0 := fun x hx => hnz x (by simp [hx])
    rw [List.cons_append]
    show (if b = 0 then some 0 else (position0 (t ++ 0 :: post)).map (· + 1))
      = some (t.length + 1)
    rw [if_neg hb, ih ht]
    rfl

/-- `<PKCS1v1_5 as EncrytionPadding>::unpad`, split at the point where the
ciphertext has been expanded into bytes:

    let bytes = ciphertext.to_bytes_be();
    if bytes.len() + 1 != block_len || bytes[0] != 0x02 { return None; }
    let padding_len = bytes[1..].iter().position(|&x| x == 0)?;
    if padding_len < 8 { return None; }
    Some(bytes[1 + padding_len + 1..].to_vec())

Outer `none` = panic (the `bytes[0]` index on an empty vector, unreachable
because `to_bytes_be` never returns an empty vector). -/
def PKCS1v1_5_unpadBytes (block_len : Nat) (bytes : List Nat) :
    Option (Option (List Nat)) :=
  if bytes.length + 1 ≠ block_len then some none
  else
    match bytes with
    | [] => none
    | b0 :: tail =>
      if b0 ≠ 2 then some none
      else
        match position0 tail with
        | none => some none
        | some padding_len =>
          if padding_len < 8 then some none
          else some (some ((b0 :: tail).drop (1 + padding_len + 1)))

/-- `<PKCS1v1_5 as EncrytionPadding>::unpad` (see `PKCS1v1_5_unpadBytes`). -/
def PKCS1v1_5_unpad (block_len : Nat) (ciphertext : Nat) :
    Option (Option (List Nat)) :=
  PKCS1v1_5_unpadBytes block_len (toBytesBe ciphertext)

theorem drop_after_sep (b0 : Nat) (pre post : List Nat) :
    (b0 :: (pre ++ 0 :: post) : List Nat).drop (1 + pre.length + 1) = post := by
  have h1 : (b0 :: (pre ++ 0 :: post) : List Nat) = (b0 :: pre ++ [0]) ++ post := by
    simp
  rw [h1, List.drop_left' (by simp; omega)]

theorem unpadBytes_some_iff (block_len : Nat) (bytes : List Nat) (pl : List Nat) :
    PKCS1v1_5_unpadBytes block_len bytes = some (some pl) ↔
      ∃ pad, bytes = 2 :: pad ++ 0 :: pl ∧ 8 ≤ pad.length ∧ (∀ b ∈ pad, b ≠ 0) ∧
        bytes.length + 1 = block_len := by
  unfold PKCS1v1_5_unpadBytes
  by_cases hlen : bytes.length + 1 ≠ block_len
  · rw [if_pos hlen]
    constructor
    · intro h
      simp at h
    · rintro ⟨pad, hb, h8, hnz, hl⟩
      exact absurd hl hlen
  · rw [if_neg hlen]
    cases bytes with
    | nil =>
      constructor
      · intro h
        exact Option.noConfusion h
      · rintro ⟨pad, hb, h8, hnz, hl⟩
        simp at hb
    | cons b0 tail =>
      show (if b0 ≠ 2 then some none
        else match position0 tail with
          | none => some none
          | some padding_len =>
            if padding_len < 8 then some none
            else some (some ((b0 :: tail).drop (1 + padding_len + 1)))) = some (some pl) ↔
        ∃ pad, b0 :: tail = 2 :: pad ++ 0 :: pl ∧ 8 ≤ pad.length ∧ (∀ b ∈ pad, b ≠ 0) ∧
          (b0 :: tail).length + 1 = block_len
      constructor
      · intro h
        split at h
        · simp at h
        · rename_i hb0
          rw [not_not] at hb0
          subst hb0
          split at h
          · simp at h
          · rename_i k hcase
            split at h
            · simp at h
            · rename_i h8
              simp only [Option.some.injEq] at h
              obtain ⟨pre, post, hpp, hlenk, hnzpre⟩ := position0_some tail k hcase
              have hdrop : (2 :: tail : List Nat).drop (1 + k + 1) = post := by
                rw [hpp, ← hlenk]
                exact drop_after_sep 2 pre post
              have hpl : pl = post := by rw [← h, hdrop]
              subst hpl
              exact ⟨pre, by simp [hpp], by omega, hnzpre, by omega⟩
      · rintro ⟨pad, hb, hp8, hnz, hl⟩
        simp only [List.cons_append, List.cons.injEq] at hb
        obtain ⟨hb0, htail⟩ := hb
        subst hb0
        subst htail
        rw [if_neg (by simp : ¬ ((2 : Nat) ≠ 2)), position0_append pad pl hnz]
        show (if pad.length < 8 then some none
          else some (some ((2 :: (pad ++ 0 :: pl) : List Nat).drop (1 + pad.length + 1))))
            = some (some pl)
        rw [if_neg (by omega), drop_after_sep 2 pad pl]

theorem unpad_ne_panic (block_len c : Nat) : PKCS1v1_5_unpad block_len c ≠ none := by
  unfold PKCS1v1_5_unpad PKCS1v1_5_unpadBytes
  obtain ⟨b, t, hbt⟩ := List.exists_cons_of_ne_nil (toBytesBe_ne_nil c)
  rw [hbt]
  by_cases hlen : (b :: t).length + 1 ≠ block_len
  · rw [if_pos hlen]
    exact Option.some_ne_none _
  · rw [if_neg hlen]
    show (if b ≠ 2 then some none
      else match position0 t with
        | none => some none
        | some padding_len =>
          if padding_len < 8 then some none
          else some (some ((b :: t).drop (1 + padding_len + 1)))) ≠ none
    by_cases hb : b ≠ 2
    · rw [if_pos hb]
      exact Option.some_ne_none _
    · rw [if_neg hb]
      rcases position0 t with _ | k
      · exact Option.some_ne_none _
      · show (if k < 8 then some none
          else some (some ((b :: t).drop (1 + k + 1)))) ≠ none
        by_cases h8 : k < 8
        · rw [if_pos h8]
          exact Option.some_ne_none _
        · rw [if_neg h8]
          exact Option.some_ne_none _

/-- Claim C6: the encryption `unpad` accepts exactly the values whose
big-endian encoding is `block_len − 1` bytes of the form
`0x02, <run of ≥ 8 non-zero bytes>, 0x00, <payload>`, returning the
payload, and returns `None` otherwise (never panicking); in particular a
block with 7 padding bytes fails, one with exactly 8 succeeds, and a block
without a `0x00` separator fails. -/
theorem pkcs1v1_5_unpad_spec :
    (∀ (block_len c : Nat) (pl : List Nat),
      PKCS1v1_5_unpad block_len c = some (some pl) ↔
        ∃ pad, toBytesBe c = 2 :: pad ++ 0 :: pl ∧ 8 ≤ pad.length ∧
          (∀ b ∈ pad, b ≠ 0) ∧ (toBytesBe c).length + 1 = block_len) ∧
    (∀ block_len c, PKCS1v1_5_unpad block_len c ≠ none) ∧
    PKCS1v1_5_unpad 11 (fromBytesBe (2 :: List.replicate 7 1 ++ 0 :: [65])) = some none ∧
    PKCS1v1_5_unpad 12 (fromBytesBe (2 :: List.replicate 8 1 ++ 0 :: [65]))
      = some (some [65]) ∧
    PKCS1v1_5_unpad 11 (fromBytesBe (2 :: List.replicate 9 1)) = some none :=
  ⟨fun bl c pl => unpadBytes_some_iff bl (toBytesBe c) pl, unpad_ne_panic,
    by decide, by decide, by decide⟩

/-- Witness for C6: the minimal 8-byte-padding block unpads to its payload. -/
theorem pkcs1v1_5_unpad_spec_witness :
    PKCS1v1_5_unpad 12 (fromBytesBe (2 :: List.replicate 8 1 ++ 0 :: [65]))
      = some (some [65]) :=
  (pkcs1v1_5_unpad_spec.1 12 (fromBytesBe (2 :: List.replicate 8 1 ++ 0 :: [65])) [65]).mpr
    ⟨List.replicate 8 1, by decide, by decide, by decide, by decide⟩

/-! ## `src/rsa/primes.rs`: `gen_prime` and `gen_rsa_prime` -/

/-- `candidate.set_bit(0, true)` from `gen_prime`: force the low bit to 1. -/
def set_low_bit (r : Nat) : Nat := if r % 2 = 0 then r + 1 else r

/-- The candidate loop of `gen_prime` from `src/rsa/primes.rs`:

    loop {
        let mut candidate = thread_rng().gen_biguint_range(&(two.pow(bits - 1) + &one),
                                                           &(two.pow(bits) - &one));
        candidate.set_bit(0, true);
        if !first_primes(&candidate) || !fermat(&candidate) || !rabin_miller(&candidate) {
            continue;
        }
        return candidate;
    }

`rand i` models the `gen_biguint_range` draw of iteration `i` (the range
`[2^(bits−1)+1, 2^bits−1)` is a hypothesis on the stream in the theorems
below, matching `gen_biguint_range`'s half-open contract); `test i c`
models the combined verdict of the three primality tests — `fermat` and
`rabin_miller` draw their own random bases, so the verdict is an arbitrary
function of the iteration and the candidate.  The fuel bounds the number of
iterations; `none` = the loop has not returned within the fuel. -/
def gen_prime_loop (rand : Nat → Nat) (test : Nat → Nat → Bool) : Nat → Nat → Option Nat
  | _, 0 => none
  | i, fuel + 1 =>
    if test i (set_low_bit (rand i)) then some (set_low_bit (rand i))
    else gen_prime_loop rand test (i + 1) fuel

/-- `gen_prime` from `src/rsa/primes.rs` (see `gen_prime_loop`). -/
def gen_prime (bits : Nat) (rand : Nat → Nat) (test : Nat → Nat → Bool)
    (fuel : Nat) : Option Nat :=
  gen_prime_loop rand test 0 fuel

/-- The retry loop of `gen_rsa_prime` from `src/rsa/primes.rs`:

    loop {
        let candidate = gen_prime(bits);
        if (&candidate % e).is_one() { continue; }
        return candidate;
    }

`gp j` is the `gen_prime` call of iteration `j`; `% e` with `e = 0`
panics (`none`), as `BigUint` division by zero does. -/
def gen_rsa_prime_loop (e : Nat) (gp : Nat → Option Nat) : Nat → Nat → Option Nat
  | _, 0 => none
  | j, fuel + 1 =>
    match gp j with
    | none => none
    | some candidate =>
      if e = 0 then none
      else if candidate % e = 1 then gen_rsa_prime_loop e gp (j + 1) fuel
      else some candidate

/-- `gen_rsa_prime(bits, e)` from `src/rsa/primes.rs`: `rand j` and `test j`
are the random streams consumed by the `j`-th inner `gen_prime` call. -/
def gen_rsa_prime (bits e : Nat) (rand : Nat → Nat → Nat)
    (test : Nat → Nat → Nat → Bool) (gfuel fuel : Nat) : Option Nat :=
  gen_rsa_prime_loop e (fun j => gen_prime bits (rand j) (test j) gfuel) 0 fuel

theorem set_low_bit_odd (r : Nat) : set_low_bit r % 2 = 1 := by
  unfold set_low_bit
  split <;> omega

theorem set_low_bit_bounds (r : Nat) : r ≤ set_low_bit r ∧ set_low_bit r ≤ r + 1 := by
  unfold set_low_bit
  split <;> omega

theorem gen_prime_loop_shape (rand : Nat → Nat) (test : Nat → Nat → Bool) :
    ∀ (fuel i c : Nat), gen_prime_loop rand test i fuel = some c →
      ∃ k, c = set_low_bit (rand k) := by
  intro fuel
  induction fuel with
  | zero =>
    intro i c h
    simp [gen_prime_loop] at h
  | succ fuel ih =>
    intro i c h
    unfold gen_prime_loop at h
    split at h
    · exact ⟨i, (Option.some.injEq _ _ ▸ h).symm⟩
    · exact ih (i + 1) c h

theorem gen_rsa_prime_loop_shape (e : Nat) (gp : Nat → Option Nat) :
    ∀ (fuel j p : Nat), gen_rsa_prime_loop e gp j fuel = some p →
      (∃ k, gp k = some p) ∧ p % e ≠ 1 := by
  intro fuel
  induction fuel with
  | zero =>
    intro j p h
    simp [gen_rsa_prime_loop] at h
  | succ fuel ih =>
    intro j p h
    unfold gen_rsa_prime_loop at h
    rcases hgp : gp j with _ | c
    · rw [hgp] at h
      simp at h
    · rw [hgp] at h
      change (if e = 0 then none
        else if c % e = 1 then gen_rsa_prime_loop e gp (j + 1) fuel
        else some c) = some p at h
      by_cases he : e = 0
      · rw [if_pos he] at h
        simp at h
      · rw [if_neg he] at h
        by_cases hmod : c % e = 1
        · rw [if_pos hmod] at h
          exact ih (j + 1) p h
        · rw [if_neg hmod] at h
          simp only [Option.some.injEq] at h
          subst h
          exact ⟨⟨j, hgp⟩, hmod⟩

/-- Claim C8: for every random stream whose draws respect
`gen_biguint_range`'s half-open contract `[2^(bits−1)+1, 2^bits−1)`, and
every outcome of the (randomized) primality tests, any value returned by
`gen_rsa_prime(bits, e)` is odd, lies in `[2^(bits−1)+1, 2^bits−1]`, and
is not `≡ 1 (mod e)`. -/
theorem gen_rsa_prime_range (bits e : Nat) (rand : Nat → Nat → Nat)
    (test : Nat → Nat → Nat → Bool) (gfuel fuel p : Nat)
    (hr : ∀ j i, 2 ^ (bits - 1) + 1 ≤ rand j i ∧ rand j i < 2 ^ bits - 1)
    (h : gen_rsa_prime bits e rand test gfuel fuel = some p) :
    p % 2 = 1 ∧ 2 ^ (bits - 1) + 1 ≤ p ∧ p ≤ 2 ^ bits - 1 ∧ p % e ≠ 1 := by
  obtain ⟨⟨j, hgp⟩, hmod⟩ := gen_rsa_prime_loop_shape e _ fuel 0 p h
  obtain ⟨k, hk⟩ := gen_prime_loop_shape (rand j) (test j) gfuel 0 p hgp
  obtain ⟨hlo, hhi⟩ := hr j k
  obtain ⟨hb1, hb2⟩ := set_low_bit_bounds (rand j k)
  subst hk
  exact ⟨set_low_bit_odd _, by omega, by omega, hmod⟩

/-- Witness for C8 at `bits = 4`, `e = 3`, a constant stream drawing 9 and
tests that always pass: the generated value 9 is odd, lies in `[9, 15]`,
and is not `≡ 1 (mod 3)`. -/
theorem gen_rsa_prime_range_witness :
    9 % 2 = 1 ∧ 2 ^ (4 - 1) + 1 ≤ 9 ∧ 9 ≤ 2 ^ 4 - 1 ∧ 9 % 3 ≠ 1 :=
  gen_rsa_prime_range 4 3 (fun _ _ => 9) (fun _ _ _ => true) 1 1 9
    (fun _ _ => by norm_num) (by decide)

/-! ## `src/rsa/padding/pkcs1v1_5.rs`: signature verifiers -/

/-- Rust slice `&l[a..b]`: panics (`none`) when `a > b` or `b > l.len()`. -/
def slice? (l : List Nat) (a b : Nat) : Option (List Nat) :=
  if a ≤ b ∧ b ≤ l.length then some ((l.drop a).take (b - a)) else none

/-- Length of the leading run of `0xff` bytes; embeds the scanning loop

    while padding_end < block.len() && block[padding_end] == 0xff {
        padding_end += 1;
    }

applied to the part of the block after the leading byte. -/
def ffRun : List Nat → Nat
  | [] => 0
  | b :: t => if b = 255 then ffRun t + 1 else 0

/-- Modelled from the spec: the digest capability consumed by the padding
code (`D::ASN1_PREFIX`, `D::OUTPUT_LENGTH`, `D::digest`) is declared
outside `src/` — the spec describes it as a fixed algorithm-identifier
prefix plus a fixed-length digest of the message.  The verifiers below are
therefore parameterized by the prefix bytes `prf` and the digest bytes
`dg` (standing for `D::digest(message)`, with `D::OUTPUT_LENGTH =
dg.length`).  This constant is the standard SHA-256 identifier, used for
concrete instances. -/
def sha256_asn1 : List Nat :=
  [0x30, 0x31, 0x30, 0x0d, 0x06, 0x09, 0x60, 0x86, 0x48, 0x01, 0x65, 0x03,
   0x04, 0x02, 0x01, 0x05, 0x00, 0x04, 0x20]

/-- `BadPKCS1v1_5::unpad_verify` from `src/rsa/padding/pkcs1v1_5.rs`:

    let block = signature.to_bytes_be();
    if block.len() + 1 != block_len || block[0] != 0x01 { return false; }
    let mut padding_end = 1;
    while padding_end < block.len() && block[padding_end] == 0xff { padding_end += 1; }
    if padding_end == 1 || block[padding_end] != 0x00 { return false; }
    padding_end += 1;
    let asn1_prefix = &block[padding_end..padding_end + asn1_prefix_len];
    if asn1_prefix != D::ASN1_PREFIX { return false; }
    let signature_hash = &block[padding_end + asn1_prefix_len..padding_end + asn1_prefix_len + hash_len];
    signature_hash == message_hash.as_ref()

stated on the byte block; `none` = panic (index or slice out of range). -/
def BadPKCS1v1_5_unpad_verify (prf dg : List Nat) (block_len : Nat)
    (block : List Nat) : Option Bool :=
  if block.length + 1 ≠ block_len then some false
  else
    match block with
    | [] => none
    | b0 :: tail =>
      if b0 ≠ 1 then some false
      else if 1 + ffRun tail = 1 then some false
      else
        match (b0 :: tail)[1 + ffRun tail]? with
        | none => none
        | some sep =>
          if sep ≠ 0 then some false
          else
            match slice? (b0 :: tail) (1 + ffRun tail + 1)
                (1 + ffRun tail + 1 + prf.length) with
            | none => none
            | some pr =>
              if pr ≠ prf then some false
              else
                match slice? (b0 :: tail) (1 + ffRun tail + 1 + prf.length)
                    (1 + ffRun tail + 1 + prf.length + dg.length) with
                | none => none
                | some h => some (decide (h = dg))

/-- `PKCS1v1_5::unpad_verify` (the correct verifier) from
`src/rsa/padding/pkcs1v1_5.rs`:

    let block = signature.to_bytes_be();
    if block.len() + 1 != block_len || block[0] != 0x01 { return false; }
    let block_len = block.len();
    if block[block_len - hash_len - prefix_len - 1] != 0x00 { return false; }
    let padding_len = block_len - hash_len - prefix_len - 2;
    if padding_len < 8 { return false; }
    let is_valid_padding = block[1..1 + padding_len].iter().all(|&x| x == 0xff);
    if !is_valid_padding { return false; }
    if block[padding_len + 1] != 0x00 { return false; }
    let asn1_prefix = &block[block_len - hash_len - prefix_len..block_len - hash_len];
    if asn1_prefix != D::ASN1_PREFIX { return false; }
    let signature_hash = &block[block_len - hash_len..];
    signature_hash == message_hash.as_ref()

`none` = panic: empty-block index, `usize` underflow in the index or
`padding_len` subtractions, or an out-of-range slice. -/
def PKCS1v1_5_unpad_verify (prf dg : List Nat) (block_len : Nat)
    (block : List Nat) : Option Bool :=
  if block.length + 1 ≠ block_len then some false
  else
    match block with
    | [] => none
    | b0 :: tail =>
      if b0 ≠ 1 then some false
      else if (b0 :: tail).length < dg.length + prf.length + 1 then none
      else
        match (b0 :: tail)[(b0 :: tail).length - dg.length - prf.length - 1]? with
        | none => none
        | some sep =>
          if sep ≠ 0 then some false
          else if (b0 :: tail).length < dg.length + prf.length + 2 then none
          else if (b0 :: tail).length - dg.length - prf.length - 2 < 8 then some false
          else
            match slice? (b0 :: tail) 1
                (1 + ((b0 :: tail).length - dg.length - prf.length - 2)) with
            | none => none
            | some padBytes =>
              if ¬ (∀ x ∈ padBytes, x = 255) then some false
              else
                match (b0 :: tail)[((b0 :: tail).length - dg.length - prf.length - 2) + 1]? with
                | none => none
                | some sep2 =>
                  if sep2 ≠ 0 then some false
                  else
                    match slice? (b0 :: tail)
                        ((b0 :: tail).length - dg.length - prf.length)
                        ((b0 :: tail).length - dg.length) with
                    | none => none
                    | some pr =>
                      if pr ≠ prf then some false
                      else
                        match slice? (b0 :: tail) ((b0 :: tail).length - dg.length)
                            (b0 :: tail).length with
                        | none => none
                        | some h => some (decide (h = dg))

theorem slice?_eq_some_iff (l s : List Nat) (a b : Nat) :
    slice? l a b = some s ↔ a ≤ b ∧ b ≤ l.length ∧ s = (l.drop a).take (b - a) := by
  unfold slice?
  split
  · rename_i hab
    simp only [Option.some.injEq]
    constructor
    · intro h
      exact ⟨hab.1, hab.2, h.symm⟩
    · intro h
      exact h.2.2.symm
  · rename_i hab
    constructor
    · intro h
      exact Option.noConfusion h
    · intro h
      exact absurd ⟨h.1, h.2.1⟩ hab

theorem ffRun_take (l : List Nat) : l.take (ffRun l) = List.replicate (ffRun l) 255 := by
  induction l with
  | nil => rfl
  | cons b t ih =>
    show List.take (if b = 255 then ffRun t + 1 else 0) (b :: t)
      = List.replicate (if b = 255 then ffRun t + 1 else 0) 255
    split
    · rename_i hb
      subst hb
      simp [List.replicate_succ, ih]
    · rfl

theorem ffRun_append_stop (k y : Nat) (rest : List Nat) (hy : y ≠ 255) :
    ffRun (List.replicate k 255 ++ y :: rest) = k := by
  induction k with
  | zero =>
    simp [ffRun, hy]
  | succ k ih =>
    rw [List.replicate_succ, List.cons_append]
    show (if (255 : Nat) = 255 then ffRun (List.replicate k 255 ++ y :: rest) + 1 else 0)
      = k + 1
    rw [if_pos rfl, ih]

theorem drop_eq_piece_append (l piece : List Nat) (a : Nat)
    (h : (l.drop a).take piece.length = piece) :
    l.drop a = piece ++ l.drop (a + piece.length) := by
  conv_lhs => rw [← List.take_append_drop piece.length (l.drop a)]
  rw [h, List.drop_drop]

theorem drop_eq_cons_of_getElem? (l : List Nat) (i v : Nat) (h : l[i]? = some v) :
    l.drop i = v :: l.drop (i + 1) := by
  have hlt : i < l.length := by
    by_contra hge
    rw [List.getElem?_eq_none (by omega)] at h
    exact Option.noConfusion h
  have hv : l[i] = v := by
    have := List.getElem?_eq_getElem hlt
    rw [this] at h
    exact Option.some.injEq _ _ ▸ h
  rw [List.drop_eq_getElem_cons hlt, hv]

theorem bad_verify_some_true_iff (prf dg : List Nat) (block_len : Nat) (block : List Nat) :
    BadPKCS1v1_5_unpad_verify prf dg block_len block = some true ↔
      block.length + 1 = block_len ∧
        ∃ k tr, 1 ≤ k ∧
          block = 1 :: (List.replicate k 255 ++ 0 :: (prf ++ (dg ++ tr))) := by
  unfold BadPKCS1v1_5_unpad_verify
  by_cases hlen : block.length + 1 ≠ block_len
  · rw [if_pos hlen]
    constructor
    · intro h
      simp at h
    · rintro ⟨hl, -⟩
      exact absurd hl hlen
  · rw [if_neg hlen]
    constructor
    · intro h
      refine ⟨by omega, ?_⟩
      split at h
      · exact Option.noConfusion h
      · rename_i b0 tail
        have hdropIdx : ∀ m : Nat, (b0 :: tail).drop (1 + m) = tail.drop m := by
          intro m
          rw [Nat.add_comm 1 m, List.drop_succ_cons]
        split at h
        · simp at h
        · split at h
          · simp at h
          · rename_i hb0 hk1
            rw [not_not] at hb0
            subst hb0
            set k := ffRun tail with hkdef
            split at h
            · exact Option.noConfusion h
            · rename_i sep heq2
              split at h
              · simp at h
              · rename_i hsep
                rw [not_not] at hsep
                subst hsep
                split at h
                · exact Option.noConfusion h
                · rename_i pr heq3
                  split at h
                  · simp at h
                  · rename_i hpr
                    rw [not_not] at hpr
                    subst hpr
                    split at h
                    · exact Option.noConfusion h
                    · rename_i hsh heq4
                      simp only [Option.some.injEq, decide_eq_true_eq] at h
                      subst h
                      have htailk : tail[k]? = some 0 := by
                        rw [← heq2, Nat.add_comm 1 k, List.getElem?_cons_succ]
                      obtain ⟨-, hb3, hpr_eq⟩ := (slice?_eq_some_iff _ _ _ _).mp heq3
                      obtain ⟨-, hb4, hsh_eq⟩ := (slice?_eq_some_iff _ _ _ _).mp heq4
                      rw [show 1 + k + 1 + pr.length - (1 + k + 1) = pr.length from by omega]
                        at hpr_eq
                      rw [show 1 + k + 1 + pr.length + hsh.length - (1 + k + 1 + pr.length)
                        = hsh.length from by omega] at hsh_eq
                      rw [show 1 + k + 1 = 1 + (k + 1) from by omega, hdropIdx] at hpr_eq
                      rw [show 1 + k + 1 + pr.length = 1 + (k + 1 + pr.length) from by omega,
                        hdropIdx] at hsh_eq
                      have e1 : tail.take k = List.replicate k 255 := by
                        rw [hkdef]
                        exact ffRun_take tail
                      have e2 : tail.drop k = 0 :: tail.drop (k + 1) :=
                        drop_eq_cons_of_getElem? tail k 0 htailk
                      have e3 : tail.drop (k + 1) = pr ++ tail.drop (k + 1 + pr.length) :=
                        drop_eq_piece_append tail pr (k + 1) hpr_eq.symm
                      have e4 : tail.drop (k + 1 + pr.length)
                          = hsh ++ tail.drop (k + 1 + pr.length + hsh.length) :=
                        drop_eq_piece_append tail hsh (k + 1 + pr.length) hsh_eq.symm
                      refine ⟨k, tail.drop (k + 1 + pr.length + hsh.length), by omega, ?_⟩
                      have htail : tail = List.replicate k 255
                          ++ 0 :: (pr ++ (hsh ++ tail.drop (k + 1 + pr.length + hsh.length))) := by
                        conv_lhs => rw [← List.take_append_drop k tail, e1, e2, e3, e4]
                      conv_lhs => rw [htail]
    · rintro ⟨hl, k, tr, hk, hblock⟩
      subst hblock
      show (if (1 : Nat) ≠ 1 then some false
        else if 1 + ffRun (List.replicate k 255 ++ 0 :: (prf ++ (dg ++ tr))) = 1 then some false
        else _) = some true
      rw [if_neg (by omega : ¬ ((1 : Nat) ≠ 1))]
      rw [ffRun_append_stop k 0 (prf ++ (dg ++ tr)) (by omega)]
      rw [if_neg (by omega : ¬ (1 + k = 1))]
      have hget : ((1 : Nat) :: (List.replicate k 255 ++ 0 :: (prf ++ (dg ++ tr))))[1 + k]?
          = some 0 := by
        rw [Nat.add_comm 1 k, List.getElem?_cons_succ,
          List.getElem?_append_right (by simp : (List.replicate k 255).length ≤ k)]
        simp
      rw [hget]
      show (if (0 : Nat) ≠ 0 then some false else _) = some true
      rw [if_neg (by omega : ¬ ((0 : Nat) ≠ 0))]
      have hdrop1 : ((1 : Nat) :: (List.replicate k 255 ++ 0 :: (prf ++ (dg ++ tr)))).drop
          (1 + k + 1) = prf ++ (dg ++ tr) := by
        rw [show 1 + k + 1 = (k + 1) + 1 from by omega, List.drop_succ_cons]
        have hsplit : (List.replicate k 255 ++ 0 :: (prf ++ (dg ++ tr)))
            = (List.replicate k 255 ++ [0]) ++ (prf ++ (dg ++ tr)) := by
          simp
        rw [hsplit, List.drop_left' (by simp)]
      have hslice1 : slice? ((1 : Nat) :: (List.replicate k 255 ++ 0 :: (prf ++ (dg ++ tr))))
          (1 + k + 1) (1 + k + 1 + prf.length) = some prf := by
        rw [slice?_eq_some_iff]
        refine ⟨by omega, by simp; omega, ?_⟩
        rw [show 1 + k + 1 + prf.length - (1 + k + 1) = prf.length from by omega, hdrop1,
          List.take_left]
      rw [hslice1]
      show (if prf ≠ prf then some false else _) = some true
      rw [if_neg (by simp : ¬ (prf ≠ prf))]
      have hdrop2 : ((1 : Nat) :: (List.replicate k 255 ++ 0 :: (prf ++ (dg ++ tr)))).drop
          (1 + k + 1 + prf.length) = dg ++ tr := by
        rw [show 1 + k + 1 + prf.length = (k + 1 + prf.length) + 1 from by omega,
          List.drop_succ_cons]
        have hsplit : (List.replicate k 255 ++ 0 :: (prf ++ (dg ++ tr)))
            = (List.replicate k 255 ++ 0 :: prf) ++ (dg ++ tr) := by
          simp
        rw [hsplit, List.drop_left' (by simp; omega)]
      have hslice2 : slice? ((1 : Nat) :: (List.replicate k 255 ++ 0 :: (prf ++ (dg ++ tr))))
          (1 + k + 1 + prf.length) (1 + k + 1 + prf.length + dg.length) = some dg := by
        rw [slice?_eq_some_iff]
        refine ⟨by omega, by simp; omega, ?_⟩
        rw [show 1 + k + 1 + prf.length + dg.length - (1 + k + 1 + prf.length) = dg.length
          from by omega, hdrop2, List.take_left]
      rw [hslice2]
      show some (decide (dg = dg)) = some true
      simp

theorem good_verify_some_true_iff (prf dg : List Nat) (block_len : Nat) (block : List Nat) :
    PKCS1v1_5_unpad_verify prf dg block_len block = some true ↔
      block.length + 1 = block_len ∧
        ∃ k, 8 ≤ k ∧ block = 1 :: (List.replicate k 255 ++ 0 :: (prf ++ dg)) := by
  unfold PKCS1v1_5_unpad_verify
  by_cases hlen : block.length + 1 ≠ block_len
  · rw [if_pos hlen]
    constructor
    · intro h
      simp at h
    · rintro ⟨hl, -⟩
      exact absurd hl hlen
  · rw [if_neg hlen]
    constructor
    · intro h
      refine ⟨by omega, ?_⟩
      split at h
      · exact Option.noConfusion h
      · rename_i b0 tail
        split at h
        · simp at h
        · rename_i hb0
          rw [not_not] at hb0
          subst hb0
          split at h
          · exact Option.noConfusion h
          · rename_i hg1
            split at h
            · exact Option.noConfusion h
            · rename_i sep heq2
              split at h
              · simp at h
              · rename_i hsep
                rw [not_not] at hsep
                subst hsep
                split at h
                · exact Option.noConfusion h
                · rename_i hg2
                  split at h
                  · simp at h
                  · rename_i hg3
                    split at h
                    · exact Option.noConfusion h
                    · rename_i padBytes heq3
                      split at h
                      · simp at h
                      · rename_i hpad
                        rw [not_not] at hpad
                        split at h
                        · exact Option.noConfusion h
                        · rename_i sep2 heq4
                          split at h
                          · simp at h
                          · rename_i hsep2
                            rw [not_not] at hsep2
                            subst hsep2
                            split at h
                            · exact Option.noConfusion h
                            · rename_i pr heq5
                              split at h
                              · simp at h
                              · rename_i hpr
                                rw [not_not] at hpr
                                subst hpr
                                split at h
                                · exact Option.noConfusion h
                                · rename_i hsh heq6
                                  simp only [Option.some.injEq,
                                    decide_eq_true_eq] at h
                                  subst h
                                  set pl := (1 :: tail : List Nat).length - hsh.length
                                    - pr.length - 2 with hpldef
                                  have hlc : (1 :: tail : List Nat).length
                                      = tail.length + 1 := by simp
                                  have hplval : pl + 1 + pr.length + hsh.length
                                      = tail.length := by omega
                                  have hidx1 : (1 :: tail : List Nat).length - hsh.length
                                      - pr.length - 1 = pl + 1 := by omega
                                  rw [hidx1] at heq2
                                  have htailpl : tail[pl]? = some 0 := by
                                    rw [← heq2, List.getElem?_cons_succ]
                                  obtain ⟨-, hb3, hpad_eq⟩ :=
                                    (slice?_eq_some_iff _ _ _ _).mp heq3
                                  rw [show 1 + pl - 1 = pl from by omega] at hpad_eq
                                  rw [show ((1 : Nat) :: tail).drop 1 = tail from rfl]
                                    at hpad_eq
                                  have hpadlen : padBytes.length = pl := by
                                    rw [hpad_eq, List.length_take]
                                    omega
                                  have e1 : tail.take pl = List.replicate pl 255 := by
                                    rw [← hpad_eq]
                                    exact List.eq_replicate_iff.mpr ⟨hpadlen, hpad⟩
                                  have e2 : tail.drop pl = 0 :: tail.drop (pl + 1) :=
                                    drop_eq_cons_of_getElem? tail pl 0 htailpl
                                  have hidx2a : (1 :: tail : List Nat).length - hsh.length
                                      - pr.length = pl + 2 := by omega
                                  have hidx2b : (1 :: tail : List Nat).length - hsh.length
                                      = pl + 2 + pr.length := by omega
                                  have hidx3 : (1 :: tail : List Nat).length
                                      = pl + 2 + pr.length + hsh.length := by omega
                                  rw [hidx2a, hidx2b] at heq5
                                  rw [hidx2b] at heq6
                                  rw [hidx3] at heq6
                                  obtain ⟨-, hb5, hpr_eq⟩ :=
                                    (slice?_eq_some_iff _ _ _ _).mp heq5
                                  obtain ⟨-, hb6, hsh_eq⟩ :=
                                    (slice?_eq_some_iff _ _ _ _).mp heq6
                                  rw [show pl + 2 + pr.length - (pl + 2) = pr.length
                                    from by omega] at hpr_eq
                                  rw [show pl + 2 = (pl + 1) + 1 from by omega,
                                    List.drop_succ_cons] at hpr_eq
                                  rw [show pl + 2 + pr.length + hsh.length
                                    - (pl + 2 + pr.length) = hsh.length from by omega]
                                    at hsh_eq
                                  rw [show pl + 2 + pr.length = (pl + 1 + pr.length) + 1
                                    from by omega, List.drop_succ_cons] at hsh_eq
                                  have e3 : tail.drop (pl + 1)
                                      = pr ++ tail.drop (pl + 1 + pr.length) :=
                                    drop_eq_piece_append tail pr (pl + 1) hpr_eq.symm
                                  have e4 : tail.drop (pl + 1 + pr.length)
                                      = hsh ++ tail.drop (pl + 1 + pr.length + hsh.length) :=
                                    drop_eq_piece_append tail hsh (pl + 1 + pr.length)
                                      hsh_eq.symm
                                  have e5 : tail.drop (pl + 1 + pr.length + hsh.length)
                                      = [] := List.drop_eq_nil_of_le (by omega)
                                  refine ⟨pl, by omega, ?_⟩
                                  have htail2 : tail = List.replicate pl 255
                                      ++ 0 :: (pr ++ (hsh ++ ([] : List Nat))) := by
                                    conv_lhs => rw [← List.take_append_drop pl tail,
                                      e1, e2, e3, e4, e5]
                                  rw [htail2]
                                  simp
    · rintro ⟨hl, k, hk, hblock⟩
      subst hblock
      show (if (1 : Nat) ≠ 1 then some false
        else if ((1 : Nat) :: (List.replicate k 255 ++ 0 :: (prf ++ dg))).length
            < dg.length + prf.length + 1 then none
        else _) = some true
      rw [if_neg (by omega : ¬ ((1 : Nat) ≠ 1))]
      set L := List.replicate k 255 ++ 0 :: (prf ++ dg) with hL
      have hLlen : L.length = k + 1 + prf.length + dg.length := by
        rw [hL]
        simp
        omega
      rw [if_neg (by simp only [List.length_cons, hLlen]; omega
        : ¬ (((1 : Nat) :: L).length < dg.length + prf.length + 1))]
      have hidx1 : ((1 : Nat) :: L).length - dg.length - prf.length - 1 = k + 1 := by
        simp only [List.length_cons, hLlen]
        omega
      rw [hidx1]
      have hget : ((1 : Nat) :: L)[k + 1]? = some 0 := by
        rw [List.getElem?_cons_succ, hL,
          List.getElem?_append_right (by simp : (List.replicate k 255).length ≤ k)]
        simp
      rw [hget]
      show (if (0 : Nat) ≠ 0 then some false else _) = some true
      rw [if_neg (by omega : ¬ ((0 : Nat) ≠ 0))]
      rw [if_neg (by simp only [List.length_cons, hLlen]; omega
        : ¬ (((1 : Nat) :: L).length < dg.length + prf.length + 2))]
      have hplk : ((1 : Nat) :: L).length - dg.length - prf.length - 2 = k := by
        simp only [List.length_cons, hLlen]
        omega
      rw [hplk]
      rw [if_neg (by omega : ¬ (k < 8))]
      have hslice1 : slice? ((1 : Nat) :: L) 1 (1 + k) = some (List.replicate k 255) := by
        rw [slice?_eq_some_iff]
        refine ⟨by omega, by simp only [List.length_cons, hLlen]; omega, ?_⟩
        rw [show 1 + k - 1 = k from by omega,
          show ((1 : Nat) :: L).drop 1 = L from rfl, hL, List.take_left' (by simp)]
      rw [hslice1]
      show (if ¬ (∀ x ∈ List.replicate k 255, x = 255) then some false else _) = some true
      rw [if_neg (not_not_intro (fun x hx => List.eq_of_mem_replicate hx))]
      rw [hget]
      show (if (0 : Nat) ≠ 0 then some false else _) = some true
      rw [if_neg (by omega : ¬ ((0 : Nat) ≠ 0))]
      have hidx2a : ((1 : Nat) :: L).length - dg.length - prf.length = k + 2 := by
        simp only [List.length_cons, hLlen]
        omega
      have hidx2b : ((1 : Nat) :: L).length - dg.length = k + 2 + prf.length := by
        simp only [List.length_cons, hLlen]
        omega
      rw [hidx2a, hidx2b]
      have hdrop2 : ((1 : Nat) :: L).drop (k + 2) = prf ++ dg := by
        rw [show k + 2 = (k + 1) + 1 from by omega, List.drop_succ_cons, hL,
          show List.replicate k 255 ++ 0 :: (prf ++ dg)
            = (List.replicate k 255 ++ [0]) ++ (prf ++ dg) from by simp,
          List.drop_left' (by simp)]
      have hslice2 : slice? ((1 : Nat) :: L) (k + 2) (k + 2 + prf.length) = some prf := by
        rw [slice?_eq_some_iff]
        refine ⟨by omega, by simp only [List.length_cons, hLlen]; omega, ?_⟩
        rw [show k + 2 + prf.length - (k + 2) = prf.length from by omega, hdrop2,
          List.take_left]
      rw [hslice2]
      show (if prf ≠ prf then some false else _) = some true
      rw [if_neg (by simp : ¬ (prf ≠ prf))]
      have hidx3 : ((1 : Nat) :: L).length = k + 2 + prf.length + dg.length := by
        simp only [List.length_cons, hLlen]
        omega
      rw [hidx3]
      have hdrop3 : ((1 : Nat) :: L).drop (k + 2 + prf.length) = dg := by
        rw [show k + 2 + prf.length = (k + 1 + prf.length) + 1 from by omega,
          List.drop_succ_cons, hL,
          show List.replicate k 255 ++ 0 :: (prf ++ dg)
            = (List.replicate k 255 ++ 0 :: prf) ++ dg from by simp,
          List.drop_left' (by simp; omega)]
      have hslice3 : slice? ((1 : Nat) :: L) (k + 2 + prf.length)
          (k + 2 + prf.length + dg.length) = some dg := by
        rw [slice?_eq_some_iff]
        refine ⟨by omega, by simp only [List.length_cons, hLlen]; omega, ?_⟩
        rw [show k + 2 + prf.length + dg.length - (k + 2 + prf.length) = dg.length
          from by omega, hdrop3, List.take_length]
      rw [hslice3]
      show some (decide (dg = dg)) = some true
      simp

/-- Claim C4 (counterexample): the claim says the flawed verifier requires
the same structure as the correct one (in particular a `0xFF` run of length
at least 8) and that the two verifiers agree on blocks with no bytes after
the digest.  The block `01 FF 00 <prefix> <digest>` has no trailing bytes,
yet `BadPKCS1v1_5` accepts it (its run has length 1) while `PKCS1v1_5`
rejects it. -/
theorem bad_verifier_differs_on_min_block :
    BadPKCS1v1_5_unpad_verify sha256_asn1 (List.replicate 32 170) 55
        ([1, 255, 0] ++ sha256_asn1 ++ List.replicate 32 170) = some true ∧
    PKCS1v1_5_unpad_verify sha256_asn1 (List.replicate 32 170) 55
        ([1, 255, 0] ++ sha256_asn1 ++ List.replicate 32 170) = some false := by
  constructor
  · decide
  · decide

/-- Claim C4 (amended): for every digest prefix, digest value, block length
and block, the flawed verifier accepts exactly the blocks of the form
`0x01, 0xFF×k (k ≥ 1, maximal run), 0x00, <prefix>, <digest>, <anything>`
(parsing stops after the digest, so trailing bytes are ignored and the
`0xFF` floor is 1, not 8), while the correct verifier accepts exactly
`0x01, 0xFF×k (k ≥ 8), 0x00, <prefix>, <digest>` with nothing after the
digest; consequently every block the correct verifier accepts is also
accepted by the flawed one (the converse fails, see the counterexample). -/
theorem pkcs1v1_5_verifiers_spec (prf dg : List Nat) (block_len : Nat) (block : List Nat) :
    (BadPKCS1v1_5_unpad_verify prf dg block_len block = some true ↔
      block.length + 1 = block_len ∧ ∃ k tr, 1 ≤ k ∧
        block = 1 :: (List.replicate k 255 ++ 0 :: (prf ++ (dg ++ tr)))) ∧
    (PKCS1v1_5_unpad_verify prf dg block_len block = some true ↔
      block.length + 1 = block_len ∧ ∃ k, 8 ≤ k ∧
        block = 1 :: (List.replicate k 255 ++ 0 :: (prf ++ dg))) ∧
    (PKCS1v1_5_unpad_verify prf dg block_len block = some true →
      BadPKCS1v1_5_unpad_verify prf dg block_len block = some true) := by
  refine ⟨bad_verify_some_true_iff prf dg block_len block,
    good_verify_some_true_iff prf dg block_len block, ?_⟩
  intro h
  obtain ⟨hl, k, hk, hb⟩ := (good_verify_some_true_iff prf dg block_len block).mp h
  refine (bad_verify_some_true_iff prf dg block_len block).mpr ⟨hl, k, [], by omega, ?_⟩
  rw [hb]
  simp

/-- Witness for the amended C4: a minimal well-formed signature block
(8-byte `0xFF` run, no trailing bytes) is accepted by the flawed verifier. -/
theorem pkcs1v1_5_verifiers_spec_witness :
    BadPKCS1v1_5_unpad_verify sha256_asn1 (List.replicate 32 170) 62
        (1 :: (List.replicate 8 255 ++ 0 :: (sha256_asn1 ++ (List.replicate 32 170 ++ []))))
      = some true :=
  (pkcs1v1_5_verifiers_spec sha256_asn1 (List.replicate 32 170) 62
    (1 :: (List.replicate 8 255 ++ 0 :: (sha256_asn1 ++ (List.replicate 32 170 ++ []))))).1.mpr
    ⟨by decide, 8, [], by decide, by decide⟩

/-! ## `RSAPublicKey::verify` and the reachable panic (claim C10) -/

/-- Fueled bit length; the recursion depth is the number of bits. -/
def bitsAux : Nat → Nat → Nat
  | 0, _ => 0
  | fuel + 1, n => if n = 0 then 0 else bitsAux fuel (n / 2) + 1

/-- `BigUint::bits` (0 for zero), as used by `RSAPublicKey::len_bits`. -/
def len_bits (n : Nat) : Nat := bitsAux n n

/-- `RSAPublicKey::len_bytes`: `self.len_bits().div_ceil(&8)`. -/
def len_bytes (n : Nat) : Nat := (len_bits n + 8 - 1) / 8

/-- `RSAPublicKey::verify::<BadPKCS1v1_5, D>` from `src/rsa/mod.rs`:

    match self.textbook_process(signature) {
        Some(decrypted_signature) =>
            S::unpad_verify::<D>(self.len_bytes(), message, &decrypted_signature),
        None => false,
    }

with `S = BadPKCS1v1_5`; `prf`/`dg` stand for `D::ASN1_PREFIX` and
`D::digest(message)`.  `none` = panic (propagated from `unpad_verify`). -/
def RSAPublicKey.verify_bad (prf dg : List Nat) (key : RSAPublicKey)
    (signature : Nat) : Option Bool :=
  match key.textbook_process signature with
  | none => none
  | some none => some false
  | some (some decrypted) =>
    BadPKCS1v1_5_unpad_verify prf dg (len_bytes key.n) (toBytesBe decrypted)

/-- Claim C10: `BadPKCS1v1_5::unpad_verify` is not total — on the block
`01 FF 00` (of the accepted length for `block_len = 4`) the framing ends so
close to the end that fewer than prefix+digest bytes remain, and the
ASN.1-prefix slice panics.  The panic is reachable through
`RSAPublicKey::verify`: the key with `e = 1`, `n = 4099·4111 = 16850989`
(4 modulus bytes) is produced by `generate_rsa_keypair_from_primes`, and
verifying the signature `0x01FF00 = 130816` against it panics. -/
theorem bad_unpad_verify_panics :
    BadPKCS1v1_5_unpad_verify sha256_asn1 (List.replicate 32 170) 4 [1, 255, 0] = none ∧
    generate_rsa_keypair_from_primes 1 4099 4111
      = some (some (⟨1, 16850989⟩, ⟨1, 16850989⟩)) ∧
    RSAPublicKey.verify_bad sha256_asn1 (List.replicate 32 170) ⟨1, 16850989⟩ 130816
      = none := by
  refine ⟨by decide, by decide, by decide⟩

/-! ## Bleichenbacher Step 3
(`tests/set6/challenge47_48_pkcs1_5_padding_oracle.rs`, the `crack` loop) -/

/-- Lexicographic order on pairs: the `Ord` instance Rust uses for
`(BigUint, BigUint)` when `m_i.sort()` is called. -/
def pair_le {α : Type} [LinearOrder α] (x y : α × α) : Prop :=
  x.1 < y.1 ∨ (x.1 = y.1 ∧ x.2 ≤ y.2)

instance {α : Type} [LinearOrder α] : DecidableRel (pair_le (α := α)) := fun x y => by
  unfold pair_le
  infer_instance

/-- `Vec::dedup`: remove consecutive duplicates. -/
def dedup_consecutive {α : Type} [DecidableEq α] : List α → List α
  | [] => []
  | [a] => [a]
  | a :: b :: rest =>
    if a = b then dedup_consecutive (b :: rest)
    else a :: dedup_consecutive (b :: rest)

theorem dedup_consecutive_cons₂ {α : Type} [DecidableEq α] (a b : α) (rest : List α) :
    dedup_consecutive (a :: b :: rest)
      = if a = b then dedup_consecutive (b :: rest)
        else a :: dedup_consecutive (b :: rest) := rfl

/-- `num_iter::range_inclusive(a, b)` on `BigUint`: `a..=b`, empty when
`a > b`. -/
def range_inclusive (a b : Nat) : List Nat := (List.range (b + 1 - a)).map (a + ·)

/-- `num-integer`'s `div_ceil` on `BigUint` (all call sites guard a
non-zero divisor, which would panic). -/
def divCeil (a b : Nat) : Nat := (a + b - 1) / b

/-- Step 3 of the `crack` loop, the narrowing of one interval list:

    let mut m_i = m_prev
        .into_iter()
        .flat_map(|(a, b)| {
            let r_start = (&a * &s_i - &three_b + &one).div_ceil(&n);
            let r_end = (&b * &s_i - &two_b).div_floor(&n);
            range_inclusive(r_start, r_end)
                .map(|ref r| {
                    (max(a.clone(), (&two_b + r * n).div_ceil(&s_i)),
                     min(b.clone(), (&three_b - &one + r * n).div_floor(&s_i)))
                })
                .collect::<Vec<_>>()
        })
        .collect::<Vec<_>>();

`none` = panic: `BigUint` underflow in `a·s_i − 3B` or `b·s_i − 2B`;
division by zero when `n = 0`; and, per mapped `r` (hence only when the
`r`-range is non-empty), division by `s_i = 0` or underflow in `3B − 1`. -/
def step3_intervals (two_b three_b n s_i : Nat) : List (Nat × Nat) → Option (List (Nat × Nat))
  | [] => some []
  | (a, b) :: rest =>
    if a * s_i < three_b then none
    else if n = 0 then none
    else if b * s_i < two_b then none
    else if divCeil (a * s_i - three_b + 1) n ≤ (b * s_i - two_b) / n
        ∧ (s_i = 0 ∨ three_b = 0) then none
    else
      match step3_intervals two_b three_b n s_i rest with
      | none => none
      | some tailIntervals =>
        some ((range_inclusive (divCeil (a * s_i - three_b + 1) n)
            ((b * s_i - two_b) / n)).map
          (fun r => (max a (divCeil (two_b + r * n) s_i),
                     min b ((three_b - 1 + r * n) / s_i))) ++ tailIntervals)

/-- Step 3 of the `crack` loop including the final

    m_i.sort();
    m_i.dedup();

`Vec::sort` is modelled by insertion sort: `pair_le` is a total
antisymmetric order, so every sort produces the same (unique) sorted
list. -/
def step3 (two_b three_b n s_i : Nat) (m_prev : List (Nat × Nat)) :
    Option (List (Nat × Nat)) :=
  match step3_intervals two_b three_b n s_i m_prev with
  | none => none
  | some l => some (dedup_consecutive (List.insertionSort pair_le l))

/-- Exact integer ceiling division, `⌈x / n⌉` for `n > 0`. -/
def int_ceil_div (x n : Int) : Int := -((-x).fdiv n)

/-- The integers from `a` to `b` inclusive. -/
def int_range_inclusive (a b : Int) : List Int :=
  (List.range (b + 1 - a).toNat).map (fun (i : Nat) => a + (i : Int))

/-- The candidate intervals of the spec's Step 3 sentence, over ℤ: for a
surviving interval `[a, b]` and every integer `r` from
`⌈(a·s − 3B + 1)/n⌉` to `⌊(b·s − 2B)/n⌋`, the interval
`[max(a, ⌈(2B + r·n)/s⌉), min(b, ⌊(3B − 1 + r·n)/s⌋)]`, collected over all
surviving intervals. -/
def step3_spec_collect (B n s : Nat) (prev : List (Nat × Nat)) : List (Int × Int) :=
  prev.foldr
    (fun ab acc =>
      (int_range_inclusive (int_ceil_div ((ab.1 : Int) * s - 3 * B + 1) n)
          (((ab.2 : Int) * s - 2 * B).fdiv n)).map
        (fun r => (max (ab.1 : Int) (int_ceil_div (2 * B + r * n) s),
                   min (ab.2 : Int) ((3 * B - 1 + r * n).fdiv s))) ++ acc)
    []

/-- The spec's Step 3: candidate intervals collected, sorted and
de-duplicated. -/
def step3_spec (B n s : Nat) (prev : List (Nat × Nat)) : List (Int × Int) :=
  dedup_consecutive (List.insertionSort pair_le (step3_spec_collect B n s prev))

/-- Embedding of a pair of naturals into a pair of integers. -/
def castPair (p : Nat × Nat) : Int × Int := ((p.1 : Int), (p.2 : Int))

theorem castPair_inj {x y : Nat × Nat} (h : castPair x = castPair y) : x = y := by
  unfold castPair at h
  rw [Prod.mk.injEq] at h
  exact Prod.ext (by exact_mod_cast h.1) (by exact_mod_cast h.2)

theorem pair_le_cast (x y : Nat × Nat) : pair_le (castPair x) (castPair y) ↔ pair_le x y := by
  unfold pair_le castPair
  simp only []
  constructor
  · rintro (h | ⟨h1, h2⟩)
    · exact Or.inl (by exact_mod_cast h)
    · exact Or.inr ⟨by exact_mod_cast h1, by exact_mod_cast h2⟩
  · rintro (h | ⟨h1, h2⟩)
    · exact Or.inl (by exact_mod_cast h)
    · exact Or.inr ⟨by exact_mod_cast h1, by exact_mod_cast h2⟩

theorem orderedInsert_cast (x : Nat × Nat) (l : List (Nat × Nat)) :
    List.orderedInsert pair_le (castPair x) (l.map castPair)
      = (List.orderedInsert pair_le x l).map castPair := by
  induction l with
  | nil => rfl
  | cons y t ih =>
    simp only [List.map_cons, List.orderedInsert]
    by_cases h : pair_le x y
    · rw [if_pos h, if_pos ((pair_le_cast x y).mpr h)]
      simp
    · rw [if_neg h, if_neg (fun hc => h ((pair_le_cast x y).mp hc))]
      simp [ih]

theorem insertionSort_cast (l : List (Nat × Nat)) :
    List.insertionSort pair_le (l.map castPair)
      = (List.insertionSort pair_le l).map castPair := by
  induction l with
  | nil => rfl
  | cons x t ih =>
    simp only [List.map_cons, List.insertionSort, ih, orderedInsert_cast]

theorem dedup_cast (l : List (Nat × Nat)) :
    dedup_consecutive (l.map castPair) = (dedup_consecutive l).map castPair := by
  induction l with
  | nil => rfl
  | cons a t ih =>
    cases t with
    | nil => rfl
    | cons b rest =>
      simp only [List.map_cons] at ih ⊢
      rw [dedup_consecutive_cons₂, dedup_consecutive_cons₂]
      by_cases h : a = b
      · rw [if_pos h, if_pos (by rw [h] : castPair a = castPair b)]
        exact ih
      · rw [if_neg h, if_neg (fun hc => h (castPair_inj hc))]
        simp only [List.map_cons, ih]

/-- Natural floor division agrees with `Int.fdiv` on casts. -/
theorem fdiv_natCast (x n : Nat) : ((x : Int)).fdiv (n : Int) = ((x / n : Nat) : Int) :=
  (Int.ofNat_fdiv x n).symm

/-- Exact ceiling division over ℤ agrees with the `(x + n - 1) / n`
formula over ℕ, for a positive divisor. -/
theorem int_ceil_div_natCast (x n : Nat) (hn : 0 < n) :
    int_ceil_div (x : Int) (n : Int) = ((divCeil x n : Nat) : Int) := by
  unfold int_ceil_div divCeil
  have hdm : n * (x / n) + x % n = x := Nat.div_add_mod x n
  have hr : x % n < n := Nat.mod_lt _ hn
  have hnz : ((n : Int)) ≠ 0 := by exact_mod_cast hn.ne'
  have hfd : (-(x : Int)).fdiv n = (-(x : Int)) / n :=
    Int.fdiv_eq_ediv _ (by positivity)
  have hdm2 : x / n * n + x % n = x := by
    rw [Nat.mul_comm] at hdm
    exact hdm
  by_cases hr0 : x % n = 0
  · have hx : (x : Int) = (n : Int) * ((x / n : Nat) : Int) := by
      exact_mod_cast (by omega : x = n * (x / n))
    have h1 : (-(x : Int)) / n = -((x / n : Nat) : Int) := by
      rw [show (-(x : Int)) = 0 + (n : Int) * (-((x / n : Nat) : Int)) from by
        linear_combination -hx]
      rw [Int.add_mul_ediv_left 0 _ hnz]
      simp
    have h2 : (x + n - 1) / n = x / n := by
      rw [show x + n - 1 = (n - 1) + (x / n) * n from by omega,
        Nat.add_mul_div_right _ _ hn,
        Nat.div_eq_of_lt (show n - 1 < n from by omega), Nat.zero_add]
    rw [hfd, h1, h2]
    simp
  · have hxc : (n : Int) * ((x / n : Nat) : Int) + ((x % n : Nat) : Int) = (x : Int) := by
      exact_mod_cast congrArg (Nat.cast : Nat → Int) hdm
    have hxe : (-(x : Int)) = ((n - x % n : Nat) : Int)
        + (n : Int) * (-((x / n : Nat) : Int) - 1) := by
      rw [Nat.cast_sub (le_of_lt hr)]
      linear_combination hxc
    have h1 : (-(x : Int)) / n = -((x / n : Nat) : Int) - 1 := by
      rw [hxe, Int.add_mul_ediv_left _ _ hnz,
        Int.ediv_eq_zero_of_lt (by positivity)
          (by exact_mod_cast Nat.sub_lt hn (Nat.pos_of_ne_zero hr0))]
      simp
    have h2 : (x + n - 1) / n = x / n + 1 := by
      rw [show x + n - 1 = ((x % n - 1) + n) + (x / n) * n from by omega,
        Nat.add_mul_div_right _ _ hn, Nat.add_div_right _ hn,
        Nat.div_eq_of_lt (show x % n - 1 < n from by omega)]
      omega
    rw [hfd, h1, h2]
    push_cast
    ring

/-- The integer inclusive range of two casts is the cast of the natural
inclusive range. -/
theorem int_range_inclusive_natCast (lo hi : Nat) :
    int_range_inclusive (lo : Int) (hi : Int)
      = (range_inclusive lo hi).map (fun x : Nat => (x : Int)) := by
  unfold int_range_inclusive range_inclusive
  rw [show ((hi : Int) + 1 - (lo : Int)).toNat = hi + 1 - lo from by omega, List.map_map]
  exact List.map_congr_left (fun i _ => by simp)

/-- One interval of Step 3: the spec's ℤ formulas compute exactly the cast
of what the code computes, under the no-underflow side conditions (which
hold throughout the attack: every tracked interval satisfies
`2B ≤ a ≤ b`, and `s_i ≥ 1`, `n ≥ 1`, `B ≥ 1`). -/
theorem step3_interval_cast (B n s a b : Nat) (hB : 0 < B) (hn : 0 < n) (hs : 0 < s)
    (ha : 3 * B ≤ a * s) (hb : 2 * B ≤ b * s) :
    (int_range_inclusive (int_ceil_div ((a : Int) * s - 3 * B + 1) n)
        (((b : Int) * s - 2 * B).fdiv n)).map
      (fun r => (max (a : Int) (int_ceil_div (2 * B + r * n) s),
                 min (b : Int) ((3 * B - 1 + r * n).fdiv s)))
    = ((range_inclusive (divCeil (a * s - 3 * B + 1) n) ((b * s - 2 * B) / n)).map
        (fun r => (max a (divCeil (2 * B + r * n) s),
                   min b ((3 * B - 1 + r * n) / s)))).map castPair := by
  have hnum1 : (a : Int) * s - 3 * B + 1 = ((a * s - 3 * B + 1 : Nat) : Int) := by
    push_cast
    omega
  have hnum2 : (b : Int) * s - 2 * B = ((b * s - 2 * B : Nat) : Int) := by
    push_cast
    omega
  rw [hnum1, hnum2, int_ceil_div_natCast _ _ hn, fdiv_natCast,
    int_range_inclusive_natCast, List.map_map, List.map_map]
  refine List.map_congr_left (fun r _ => ?_)
  show (max (a : Int) (int_ceil_div (2 * B + (r : Int) * n) s),
        min (b : Int) ((3 * B - 1 + (r : Int) * n).fdiv s))
    = castPair (max a (divCeil (2 * B + r * n) s), min b ((3 * B - 1 + r * n) / s))
  have hnum3 : (2 : Int) * B + (r : Int) * n = ((2 * B + r * n : Nat) : Int) := by
    push_cast
    ring
  have hnum4 : (3 : Int) * B - 1 + (r : Int) * n = ((3 * B - 1 + r * n : Nat) : Int) := by
    push_cast
    omega
  rw [hnum3, hnum4, int_ceil_div_natCast _ _ hs, fdiv_natCast]
  unfold castPair
  rw [Prod.mk.injEq]
  constructor
  · rw [Nat.cast_max]
  · rw [Nat.cast_min]

/-- The interval-collection phase of Step 3 computes (the cast of) the
spec's candidate list and never panics, given positive `B`, `n`, `s` and
the no-underflow conditions on the surviving intervals. -/
theorem step3_intervals_eq (B n s : Nat) (hB : 0 < B) (hn : 0 < n) (hs : 0 < s) :
    ∀ prev : List (Nat × Nat), (∀ ab ∈ prev, 3 * B ≤ ab.1 * s ∧ 2 * B ≤ ab.2 * s) →
      ∃ L, step3_intervals (2 * B) (3 * B) n s prev = some L ∧
        L.map castPair = step3_spec_collect B n s prev := by
  intro prev
  induction prev with
  | nil =>
    intro _
    exact ⟨[], rfl, rfl⟩
  | cons ab rest ih =>
    intro hab
    obtain ⟨a, b⟩ := ab
    obtain ⟨ha, hb⟩ := hab (a, b) (by simp)
    obtain ⟨L, hL, hLmap⟩ := ih (fun x hx => hab x (by simp [hx]))
    refine ⟨(range_inclusive (divCeil (a * s - 3 * B + 1) n) ((b * s - 2 * B) / n)).map
      (fun r => (max a (divCeil (2 * B + r * n) s),
                 min b ((3 * B - 1 + r * n) / s))) ++ L, ?_, ?_⟩
    · show step3_intervals (2 * B) (3 * B) n s ((a, b) :: rest) = _
      unfold step3_intervals
      rw [if_neg (by simp at ha ⊢; omega : ¬ (a * s < 3 * B)),
        if_neg (by omega : ¬ (n = 0)),
        if_neg (by simp at hb ⊢; omega : ¬ (b * s < 2 * B)),
        if_neg (by omega :
          ¬ (divCeil (a * s - 3 * B + 1) n ≤ (b * s - 2 * B) / n ∧ (s = 0 ∨ 3 * B = 0))),
        hL]
    · show (_ ++ L).map castPair = step3_spec_collect B n s ((a, b) :: rest)
      rw [List.map_append, hLmap]
      unfold step3_spec_collect
      rw [List.foldr_cons]
      show _ = _ ++ step3_spec_collect B n s rest
      rw [step3_interval_cast B n s a b hB hn hs ha hb]
      rfl

/-- Claim C7: in each Step-3 iteration, given the multiplier `s_i` and the
previous interval set, the code's new interval set exists (no panic) and
is exactly — as exact integer arithmetic, with true ceiling/floor
division — the spec's set: for every surviving interval `[a, b]` and every
integer `r` from `⌈(a·s_i − 3B + 1)/n⌉` to `⌊(b·s_i − 2B)/n⌋` inclusive,
the interval `[max(a, ⌈(2B + r·n)/s_i⌉), min(b, ⌊(3B − 1 + r·n)/s_i⌋)]`,
collected, sorted, and de-duplicated. -/
theorem step3_eq_spec (B n s : Nat) (prev : List (Nat × Nat))
    (hB : 0 < B) (hn : 0 < n) (hs : 0 < s)
    (hab : ∀ ab ∈ prev, 3 * B ≤ ab.1 * s ∧ 2 * B ≤ ab.2 * s) :
    ∃ L, step3 (2 * B) (3 * B) n s prev = some L ∧
      L.map castPair = step3_spec B n s prev := by
  obtain ⟨L, hL, hmap⟩ := step3_intervals_eq B n s hB hn hs prev hab
  refine ⟨dedup_consecutive (List.insertionSort pair_le L), ?_, ?_⟩
  · unfold step3
    rw [hL]
  · unfold step3_spec
    rw [← hmap, ← dedup_cast, ← insertionSort_cast]

/-- Witness for C7 at `B = 1`, `n = 2`, `s = 3`, previous set `{[1, 2]}`. -/
theorem step3_eq_spec_witness :
    ∃ L, step3 (2 * 1) (3 * 1) 2 3 [(1, 2)] = some L ∧
      L.map castPair = step3_spec 1 2 3 [(1, 2)] :=
  step3_eq_spec 1 2 3 [(1, 2)] (by decide) (by decide) (by decide)
    (fun ab hab => by
      rw [List.mem_singleton.mp hab]
      exact ⟨by decide, by decide⟩)
